import Mathlib

/-!
# codpen: the WOOT document model and the multi-room relay server

Part I embeds the sequence CRDT of package `crdt` (type `Character`, type
`Document`, `New`, `Content`, `IntegrateInsert`, `Insert`, `Save`, `Load`).
Only the interface `CRDT` (`crdt/crdt.go`) and the package's tests
(`crdt/woot_test.go`) are available, so the operations are modelled from the
specification and from the expectations written in the tests.

Part II embeds the relay server of `server/main.go` as explicit state passing:
the room map, the per-room client registry, the broadcast primitives and the
two routers. A registry operation is followed in the goroutine that runs it,
so that a send on the unbuffered channel `syncChan` made by its only receiver
is a run that never returns.
-/

set_option autoImplicit false

namespace crdt

/-! ## Part I: data model -/

/-- Modelled from the spec: the struct `Character` of package `crdt`, whose
declaration is missing; the fields are those the literals of `woot_test.go`
use: `ID`, `Visible`, `Value`, `CP` (id of the previous character) and `CN`
(id of the next character). -/
structure Character where
  ID : String
  Visible : Bool
  Value : String
  CP : String
  CN : String
deriving DecidableEq, Repr

/-- Modelled from the spec: the struct `Document`, an ordered sequence of
characters (`Characters []Character` in the test literals). -/
structure Document where
  Characters : List Character
deriving DecidableEq, Repr

/-- Modelled from the spec: the failures of the document operations. An
anchor or a delete target that is not in the document is `NotFound` (the
operation has to be buffered by the caller), a local position outside the
visible range is `PositionOutOfBounds`, and `OutOfFuel` is the model's own
bound on the recursion of `IntegrateInsert`. -/
inductive CrdtError where
  | NotFound
  | PositionOutOfBounds
  | OutOfFuel
deriving DecidableEq, Repr

/-- Modelled from the spec: the sentinel that opens every document
(`prevId = ""`, invisible). -/
def startChar : Character :=
  { ID := "start", Visible := false, Value := "", CP := "", CN := "end" }

/-- Modelled from the spec: the sentinel that closes every document
(`nextId = ""`, invisible). -/
def endChar : Character :=
  { ID := "end", Visible := false, Value := "", CP := "start", CN := "" }

/-- Modelled from the spec: `New()`, the empty document `[start, end]`. -/
def New : Document :=
  { Characters := [startChar, endChar] }

/-- Modelled from the spec: `length()`, the number of stored characters,
sentinels and tombstones included. -/
def Document.Length (d : Document) : Nat :=
  d.Characters.length

/-- Modelled from the spec: `elementAt(i)`. -/
def Document.ElementAt (d : Document) (i : Nat) : Option Character :=
  d.Characters.get? i

/-- Modelled from the spec: the search behind `indexOf(id)`, the index of the
first character of `cs` whose id is `id`. -/
def positionIn (id : String) : List Character → Option Nat
  | [] => none
  | c :: cs =>
    if c.ID = id then some 0
    else match positionIn id cs with
      | some n => some (n + 1)
      | none => none

/-- Modelled from the spec: `indexOf(id)`, the position of the character
with the given id in the sequence. -/
def Document.Position (d : Document) (id : String) : Option Nat :=
  positionIn id d.Characters

/-- Modelled from the spec: the visible subsequence of a document, in
sequence order. -/
def Document.visible (d : Document) : List Character :=
  d.Characters.filter (fun c => c.Visible)

/-- Modelled from the spec: the values of the visible characters, in sequence
order. -/
def Document.visibleValues (d : Document) : List String :=
  d.visible.map (fun c => c.Value)

/-- Modelled from the spec: `content()`, the concatenation of all visible
values in sequence order. -/
def Content (d : Document) : String :=
  String.join d.visibleValues

/-- Modelled from the spec: `visibleAt(i)`, the i-th visible character,
where position `0` is the opening sentinel and the position after the last
visible character is the closing sentinel. -/
def Document.IthVisible (d : Document) (i : Nat) : Option Character :=
  if i = 0 then d.Characters.head?
  else if i ≤ d.visible.length then d.visible.get? (i - 1)
  else if i = d.visible.length + 1 then d.Characters.getLast?
  else none

/-- Modelled from the spec: the update of the character stored at index `i`;
an index past the end changes nothing. -/
def modifyAt (f : Character → Character) : Nat → List Character → List Character
  | _, [] => []
  | 0, c :: cs => f c :: cs
  | i + 1, c :: cs => c :: modifyAt f i cs

/-- Modelled from the spec: the rewriting of the `CN` link of the character at
index `i`. -/
def setCN (cs : List Character) (i : Nat) (id : String) : List Character :=
  modifyAt (fun c => { c with CN := id }) i cs

/-- Modelled from the spec: the rewriting of the `CP` link of the character at
index `i`. -/
def setCP (cs : List Character) (i : Nat) (id : String) : List Character :=
  modifyAt (fun c => { c with CP := id }) i cs

/-- Modelled from the spec: the store's insertion of `char` at index
`position` (the helper behind "insert `newChar` immediately after `prev`").
As scenario S3 and the expectations of `TestIntegrateInsert_SamePosition`
and `TestIntegrateInsert_BetweenTwoPositions` show, the character that now
precedes `char` gets its `CN` set to `char.ID` and the one that now follows
it gets its `CP` set to `char.ID`; `char` itself is stored as given. The
sentinels stay at both ends: index `0` and indexes past the last character
are refused. -/
def Document.LocalInsert (d : Document) (char : Character) (position : Nat) :
    Except CrdtError Document :=
  if position = 0 ∨ d.Length ≤ position then .error .PositionOutOfBounds
  else
    let inserted := d.Characters.take position ++ char :: d.Characters.drop position
    .ok { Characters := setCP (setCN inserted (position - 1) char.ID) (position + 1) char.ID }

/-- Modelled from the spec: the subsequence strictly between the indexes `i`
and `j` of the sequence. -/
def between (cs : List Character) (i j : Nat) : List Character :=
  (cs.take j).drop (i + 1)

/-- Modelled from the spec: step 2 of `integrateInsert`: a character `c` of
the subsequence is kept when its own `prevId` is not strictly before `prev`
and its own `nextId` is not strictly after `next` in the current sequence
(`i` and `j` are the indexes of `prev` and `next`); the condition is taken
as step 2 states it. A link whose target is not in the document decides
nothing and does not exclude `c`. -/
def inL (d : Document) (i j : Nat) (c : Character) : Bool :=
  (match d.Position c.CP with
    | some p => decide (i ≤ p)
    | none => true) &&
  (match d.Position c.CN with
    | some n => decide (n ≤ j)
    | none => true)

/-- Modelled from the spec: the total order on ids, lexicographic on the
characters of the canonical form; `idLess a b` is `a < b`. -/
def idLess (a b : String) : Bool :=
  decide (a.data < b.data)

/-- Modelled from the spec: step 4 of `integrateInsert`: scanning the
subsequence `S` from the left, the offset of the first character that is in
`L` and whose id is greater than `id`; `none` when there is none. -/
def scanGreater (d : Document) (i j : Nat) (id : String) : List Character → Option Nat
  | [] => none
  | c :: cs =>
    if inL d i j c && idLess id c.ID then some 0
    else match scanGreater d i j id cs with
      | some k => some (k + 1)
      | none => none

/-- Modelled from the spec: `integrateInsert(newChar, prev, next)`, steps 1
to 4 of the remote integration, with `fuel` bounding the recursion of step 4.
The anchors are looked up by id; an anchor that is not in the document is
`NotFound`. Step 1: when nothing lies strictly between the anchors the
character is inserted immediately after `prev`. Step 3: when `L` is empty it
is inserted immediately after `prev` as well. Step 4: otherwise the scan of
`S` finds the first character of `L` with a greater id, at offset `k`, and
the integration recurses on `(S[k-1], S[k])`, where `S[-1]` is `prev`; when
no character of `L` has a greater id the new character goes behind all of
them, so the integration recurses on the last character of `S` and `next`
(scenario S2 expects `1@2` after `1@1`). -/
def integrateInsertFuel : Nat → Document → Character → Character → Character →
    Except CrdtError Document
  | 0, _, _, _, _ => .error .OutOfFuel
  | fuel + 1, d, char, charPrev, charNext =>
    match d.Position charPrev.ID, d.Position charNext.ID with
    | some i, some j =>
      let S := between d.Characters i j
      if S = [] then d.LocalInsert char (i + 1)
      else if S.filter (inL d i j) = [] then d.LocalInsert char (i + 1)
      else
        match scanGreater d i j char.ID S with
        | some k =>
          integrateInsertFuel fuel d char ((charPrev :: S).getD k charPrev) (S.getD k charNext)
        | none =>
          integrateInsertFuel fuel d char (S.getLastD charPrev) charNext
    | _, _ => .error .NotFound

/-- Modelled from the spec: `IntegrateInsert(char, charPrev, charNext)` as the
tests call it. The recursion of step 4 is given one round more than the
document has characters. -/
def Document.IntegrateInsert (d : Document) (char charPrev charNext : Character) :
    Except CrdtError Document :=
  integrateInsertFuel (d.Length + 1) d char charPrev charNext

/-- Modelled from the spec: the identifier `"<counter>@<siteId>"`. -/
def mintID (counter : Nat) (siteID : String) : String :=
  toString counter ++ "@" ++ siteID

/-- Modelled from the spec: the local `Insert(position, value)` of the `CRDT`
interface, for the site `siteID` whose local counter stands at `clock`. The
position must lie in `1 .. visibleLength + 1`; the new visible character gets a
fresh id, is anchored on the visible character before the position (or `start`)
and on the visible character at the position (or `end`), and is integrated
at once. The document and its content are returned. -/
def Document.Insert (d : Document) (siteID : String) (clock : Nat) (position : Nat)
    (value : String) : Except CrdtError (Document × String) :=
  if position = 0 ∨ d.visible.length + 1 < position then .error .PositionOutOfBounds
  else
    match d.IthVisible (position - 1), d.IthVisible position with
    | some charPrev, some charNext =>
      let char : Character :=
        { ID := mintID (clock + 1) siteID, Visible := true, Value := value,
          CP := charPrev.ID, CN := charNext.ID }
      match d.IntegrateInsert char charPrev charNext with
      | .ok d1 => .ok (d1, Content d1)
      | .error e => .error e
    | _, _ => .error .NotFound

/-- The values of the visible characters of a list. -/
def vals (cs : List Character) : List String :=
  (cs.filter (fun c => c.Visible)).map (fun c => c.Value)

/-! ### Snapshot codec -/

/-- Modelled from the spec: the double quote that delimits a string of the
snapshot text. -/
def quoteChar : Char := Char.ofNat 34

/-- Modelled from the spec: the backslash that escapes a character inside a
string of the snapshot text. -/
def escapeChar : Char := Char.ofNat 92

/-- Modelled from the spec: the writer of the characters of a string, in front
of `k`; a double quote or a backslash is preceded by a backslash. -/
def putEscaped : List Char → List Char → List Char
  | [], k => k
  | c :: cs, k =>
    if c = quoteChar ∨ c = escapeChar then escapeChar :: c :: putEscaped cs k
    else c :: putEscaped cs k

/-- Modelled from the spec: the writer of a quoted string, in front of `k`. -/
def putString (s : String) (k : List Char) : List Char :=
  quoteChar :: putEscaped s.data (quoteChar :: k)

/-- Modelled from the spec: the writer of `true` or `false`, in front of `k`. -/
def putBool (b : Bool) (k : List Char) : List Char :=
  (if b then "true" else "false").data ++ k

/-- Modelled from the spec: the writer of one character of the document, as an
object that names its five fields, in front of `k`. -/
def putCharacter (c : Character) (k : List Char) : List Char :=
  "\x7b\"ID\":".data ++ putString c.ID
    (",\"Visible\":".data ++ putBool c.Visible
      (",\"Value\":".data ++ putString c.Value
        (",\"CP\":".data ++ putString c.CP
          (",\"CN\":".data ++ putString c.CN ("\x7d".data ++ k)))))

/-- Modelled from the spec: the writer of the characters of a non-empty
sequence, separated by commas and closed by a bracket, in front of `k`. -/
def putCharacters : Character → List Character → List Char → List Char
  | c, [], k => putCharacter c ("]".data ++ k)
  | c, c1 :: cs, k => putCharacter c (",".data ++ putCharacters c1 cs k)

/-- Modelled from the spec: `save(document)`, the snapshot of a document:
the full character sequence, sentinels and tombstones included, as a
self-describing text (an array of objects with named fields). The file the
Go function writes is its return value here. -/
def Save (d : Document) : String :=
  match d.Characters with
  | [] => "[]"
  | c :: cs => String.mk ("[".data ++ putCharacters c cs [])

/-- Modelled from the spec: the reader of the literal `lit` at the front of
the input. -/
def expect : List Char → List Char → Option (List Char)
  | [], inp => some inp
  | _ :: _, [] => none
  | l :: ls, c :: cs => if l = c then expect ls cs else none

/-- Modelled from the spec: the reader of the characters of a string up to the
closing quote, undoing the escapes. -/
def readEscaped : List Char → Option (List Char × List Char)
  | [] => none
  | c :: rest =>
    if c = quoteChar then some ([], rest)
    else if c = escapeChar then
      match rest with
      | [] => none
      | e :: rest2 =>
        match readEscaped rest2 with
        | some (s, r) => some (e :: s, r)
        | none => none
    else
      match readEscaped rest with
      | some (s, r) => some (c :: s, r)
      | none => none

/-- Modelled from the spec: the reader of a quoted string. -/
def readString (inp : List Char) : Option (String × List Char) :=
  match inp with
  | [] => none
  | q :: rest =>
    if q = quoteChar then
      match readEscaped rest with
      | some (s, r) => some (String.mk s, r)
      | none => none
    else none

/-- Modelled from the spec: the reader of `true` or `false`. -/
def readBool (inp : List Char) : Option (Bool × List Char) :=
  match expect "true".data inp with
  | some r => some (true, r)
  | none =>
    match expect "false".data inp with
    | some r => some (false, r)
    | none => none

/-- Modelled from the spec: the reader of one character object. -/
def readCharacter (inp : List Char) : Option (Character × List Char) := do
  let r ← expect "\x7b\"ID\":".data inp
  let (id, r) ← readString r
  let r ← expect ",\"Visible\":".data r
  let (vis, r) ← readBool r
  let r ← expect ",\"Value\":".data r
  let (val, r) ← readString r
  let r ← expect ",\"CP\":".data r
  let (cp, r) ← readString r
  let r ← expect ",\"CN\":".data r
  let (cn, r) ← readString r
  let r ← expect "\x7d".data r
  some ({ ID := id, Visible := vis, Value := val, CP := cp, CN := cn }, r)

/-- Modelled from the spec: the reader of the objects of a non-empty array up
to the closing bracket; `fuel` bounds the number of objects. -/
def readCharacters : Nat → List Char → Option (List Character × List Char)
  | 0, _ => none
  | fuel + 1, inp =>
    match readCharacter inp with
    | none => none
    | some (c, r) =>
      match expect "]".data r with
      | some r1 => some ([c], r1)
      | none =>
        match expect ",".data r with
        | none => none
        | some r1 =>
          match readCharacters fuel r1 with
          | some (cs, r2) => some (c :: cs, r2)
          | none => none

/-- Modelled from the spec: `load(bytes)`, the document of a snapshot. A
text that is not a snapshot, or that goes on after the closing bracket, is
refused (`none`): there are no partial loads. -/
def Load (text : String) : Option Document :=
  match expect "[".data text.data with
  | none => none
  | some r =>
    match expect "]".data r with
    | some [] => some { Characters := [] }
    | some (_ :: _) => none
    | none =>
      match readCharacters r.length r with
      | some (cs, []) => some { Characters := cs }
      | _ => none

/-- The index at which `integrateInsert` puts a character with id `id` whose
anchors stand at the indexes `i` and `j`, when ids are pairwise distinct. -/
def landingIndex (d : Document) (i j : Nat) (id : String) : Nat :=
  if between d.Characters i j = [] then i + 1
  else if (between d.Characters i j).filter (inL d i j) = [] then i + 1
  else
    match scanGreater d i j id (between d.Characters i j) with
    | some k => i + k + 1
    | none => j

/-! ### Sample documents -/

/-- The document of `TestLoad`: content `cat`, a newline, `dog`. -/
def catDog : Document := { Characters := [
  { ID := "start", Visible := false, Value := "", CP := "", CN := "1" },
  { ID := "1", Visible := true, Value := "c", CP := "start", CN := "3" },
  { ID := "3", Visible := true, Value := "a", CP := "1", CN := "2" },
  { ID := "2", Visible := true, Value := "t", CP := "3", CN := "4" },
  { ID := "4", Visible := true, Value := "\n", CP := "2", CN := "5" },
  { ID := "5", Visible := true, Value := "d", CP := "4", CN := "6" },
  { ID := "6", Visible := true, Value := "o", CP := "5", CN := "7" },
  { ID := "7", Visible := true, Value := "g", CP := "6", CN := "end" },
  { ID := "end", Visible := false, Value := "", CP := "7", CN := "" }] }

end crdt

namespace server

/-! ## Part II: the relay server (`server/main.go`) -/

/-- The type `uuid.UUID`: sixteen bytes, read as one number; `uuid.Nil` is
the zero value. -/
abbrev UUID := Nat

/-- The zero value `uuid.Nil`, which a `Message` literal without `ID` carries. -/
def uuidNil : UUID := 0

/-- Modelled from the spec: the struct `commons.Message`, whose declaration
is missing; the fields are those `main.go` and `main_test.go` use (`MsgType`
is the field `Type`, a word Lean reserves). A field
that a Go literal leaves out has its zero value. The operation payload is
opaque to the server. -/
structure Message where
  Username : String := ""
  Text : String := ""
  MsgType : String := ""
  ID : UUID := uuidNil
  Operation : String := ""
deriving DecidableEq, Repr

/-- Modelled from the spec: the constant `commons.DocSyncMessage`. -/
def DocSyncMessage : String := "docSync"

/-- Modelled from the spec: the constant `commons.DocReqMessage`. -/
def DocReqMessage : String := "docReq"

/-- Modelled from the spec: the constant `commons.SiteIDMessage`. -/
def SiteIDMessage : String := "siteID"

/-- Modelled from the spec: the constant `commons.JoinMessage`. -/
def JoinMessage : String := "join"

/-- Modelled from the spec: the constant `commons.UsersMessage`. -/
def UsersMessage : String := "users"

/-- The struct `client`: `Conn` names the WebSocket connection; the two
mutexes of the Go struct carry no data and are left out. -/
structure client where
  Conn : Nat
  SiteID : String
  id : UUID
  Username : String
deriving DecidableEq, Repr

/-- The struct `Clients`. The map `list` is kept as the list of its values:
every entry is stored under its own `id` (see `add`), the ids are the keys,
and the order of the list stands for the order in which `range` happens to
enumerate the map. `monitors` counts the `handle` workers started for this
registry. The request channels are replaced by direct calls of what the
monitor does for each request. -/
structure Clients where
  list : List client
  monitors : Nat
deriving DecidableEq, Repr

/-- The function `NewClients`. -/
def NewClients : Clients :=
  { list := [], monitors := 0 }

/-- The keys of the map `list` are pairwise distinct. -/
def Clients.WF (c : Clients) : Prop :=
  (c.list.map (fun cl => cl.id)).Nodup

instance (c : Clients) : Decidable c.WF := by
  unfold Clients.WF; infer_instance

/-- The map lookup `c.list[id]`: `none` is the nil pointer of a missing key. -/
def Clients.lookup (c : Clients) (id : UUID) : Option client :=
  c.list.find? (fun cl => cl.id == id)

/-- The struct `Room`. -/
structure Room where
  ID : String
  Clients : Clients
deriving DecidableEq, Repr

/-- The function `NewRoom`; `fresh` is the string of the UUID it draws. -/
def NewRoom (fresh : String) : Room :=
  { ID := fresh, Clients := NewClients }

/-- One write on a client connection: the client `client.send` was called
on, the message, and whether `WriteJSON` succeeded. -/
structure Send where
  dst : client
  msg : Message
  ok : Bool
deriving DecidableEq, Repr

/-- The goroutine a registry operation runs in. The channel `syncChan` is
unbuffered and the loop of `handleSync` is its only receiver, so a send on
it ends differently according to who sends. -/
inductive Goroutine where
  | handleConn
  | handleMsg
  | handleSync
deriving DecidableEq, Repr

/-- The state a registry operation works on: the registry itself, the writes
attempted so far (oldest first), the messages the loop of `handleSync` has
taken from `syncChan` so far (oldest first), the connections closed so far,
and whether the goroutine that runs the operation is blocked for ever in a
send on `syncChan`. A run that is `hung` never returns to its caller: the
other fields tell what had happened when it blocked. -/
structure Run where
  clients : Clients
  sends : List Send
  syncChan : List Message
  closed : List Nat
  hung : Bool := false
deriving DecidableEq, Repr

/-- A run that starts on the registry `c` with nothing done yet. -/
def Run.start (c : Clients) : Run :=
  { clients := c, sends := [], syncChan := [], closed := [] }

/-- The monitor's answer to a `readAll` request, which is what `getAll`
hands to its caller: every client of the map. -/
def Clients.getAll (c : Clients) : List client :=
  c.list

/-- The monitor's answer to a `get` request: the values the returned channel
yields before it is closed. The monitor sends `c.list[req.id]`, which is the
nil pointer (`none`) when the id is not registered. -/
def Clients.get (c : Clients) (id : UUID) : List (Option client) :=
  [c.lookup id]

/-- The monitor's handling of an `add` request: `c.list[client.id] = client`. -/
def Clients.add (c : Clients) (cl : client) : Clients :=
  if c.list.any (fun x => x.id == cl.id) then
    { c with list := c.list.map (fun x => if x.id == cl.id then cl else x) }
  else
    { c with list := c.list ++ [cl] }

/-- The monitor's handling of a name update: `c.list[n.id].Username =
n.newName`. The result is `none` when the id is not registered: the Go code
then dereferences a nil pointer. -/
def Clients.updateName (c : Clients) (id : UUID) (newName : String) : Option Clients :=
  match c.lookup id with
  | none => none
  | some _ =>
    let rename := fun (x : client) => if x.id == id then { x with Username := newName } else x
    some { c with list := c.list.map rename }

/-- The text `sendUsernames` builds: each username followed by a comma. -/
def usersText (cs : List client) : String :=
  cs.foldl (fun users cl => users ++ cl.Username ++ ",") ""

/-- The message `sendUsernames` puts on `syncChan`: the literal sets `Text`
and `Type` only. -/
def Clients.usersMessage (c : Clients) : Message :=
  { Text := usersText c.getAll, MsgType := UsersMessage }

/-- The method `sendUsernames`, run by the goroutine `who`: the usernames
are collected and the message is sent on `syncChan`. The channel is
unbuffered, so the send returns only when the loop of `handleSync`, its one
receiver, takes the message. Sent from `handleConn` or `handleMsg`, the
message is taken by that loop, which is then at its receive, and the method
returns. Sent from `handleSync` itself (through `delete`, after a failed write of `broadcastAll` or
`broadcastOne`), nobody is left to take it: the send blocks for ever, and
the message never gets onto the channel. -/
def Run.sendUsernames (who : Goroutine) (r : Run) : Run :=
  if who = Goroutine.handleSync then { r with hung := true }
  else { r with syncChan := r.syncChan ++ [r.clients.usersMessage] }

/-- The method `close`: a registered client has its connection closed and is
removed from the map; for an id that is not registered the map is left as it
is. -/
def Run.close (r : Run) (id : UUID) : Run :=
  match r.clients.lookup id with
  | some cl =>
    { r with
      clients := { r.clients with list := r.clients.list.filter (fun x => x.id != id) },
      closed := r.closed ++ [cl.Conn] }
  | none => r

/-- The method `delete`, run by the goroutine `who`: the monitor closes the
client, then the caller sends the usernames again, which in `handleSync`
never returns. -/
def Run.delete (who : Goroutine) (r : Run) (id : UUID) : Run :=
  (r.close id).sendUsernames who

/-- The call `client.send(msg)` with the handling every broadcast gives its
error, run by the goroutine `who`: `wire cl msg` tells whether `WriteJSON`
succeeds; a failed write has the client deleted. -/
def Run.sendTo (who : Goroutine) (wire : client → Message → Bool) (r : Run) (cl : client)
    (msg : Message) : Run :=
  if wire cl msg then
    { r with sends := r.sends ++ [{ dst := cl, msg := msg, ok := true }] }
  else
    Run.delete who { r with sends := r.sends ++ [{ dst := cl, msg := msg, ok := false }] } cl.id

/-- The loop of `broadcastAll` over the clients `getAll` returned. The method
has one caller, the `users` case of `handleSync`, so it runs in that
goroutine: the `delete` after a failed write never returns, and the clients
enumerated after that one are not written to. -/
def broadcastAllLoop (wire : client → Message → Bool) (msg : Message) :
    List client → Run → Run
  | [], r => r
  | cl :: rest, r =>
    if (r.sendTo Goroutine.handleSync wire cl msg).hung then
      r.sendTo Goroutine.handleSync wire cl msg
    else broadcastAllLoop wire msg rest (r.sendTo Goroutine.handleSync wire cl msg)

/-- The method `broadcastAll`, as `handleSync` runs it. -/
def Clients.broadcastAll (wire : client → Message → Bool) (c : Clients) (msg : Message) :
    Run :=
  broadcastAllLoop wire msg c.getAll (Run.start c)

/-- The loop of `broadcastAllExcept`. The test `client == nil` of the Go loop
never holds, since `add` stores no nil pointer. The method has one caller,
`handleMsg`, so it runs in that goroutine: the usernames a `delete` sends are
taken by `handleSync` and the loop goes on. -/
def broadcastAllExceptLoop (wire : client → Message → Bool) (msg : Message) (except : UUID) :
    List client → Run → Run
  | [], r => r
  | cl :: rest, r =>
    if cl.id = except then broadcastAllExceptLoop wire msg except rest r
    else broadcastAllExceptLoop wire msg except rest (r.sendTo Goroutine.handleMsg wire cl msg)

/-- The method `broadcastAllExcept`, as `handleMsg` runs it. -/
def Clients.broadcastAllExcept (wire : client → Message → Bool) (c : Clients)
    (msg : Message) (except : UUID) : Run :=
  broadcastAllExceptLoop wire msg except c.getAll (Run.start c)

/-- The method `broadcastOne`, run by the goroutine `who` (`handleConn` for
the `siteID` message, `handleSync` for a `docSync` message): the one value
read from the channel of `get` is written to unless it is nil. -/
def Clients.broadcastOne (who : Goroutine) (wire : client → Message → Bool) (c : Clients)
    (msg : Message) (dst : UUID) : Run :=
  match (c.get dst).head? with
  | some (some cl) => (Run.start c).sendTo who wire cl msg
  | _ => Run.start c

/-- The loop of `broadcastOneExcept`: a failed write deletes the client and
goes on, the first successful write ends the loop. The method has one caller,
`handleConn`, so it runs in that goroutine: the usernames a `delete` sends
are taken by `handleSync` and the loop goes on. -/
def broadcastOneExceptLoop (wire : client → Message → Bool) (msg : Message) (except : UUID) :
    List client → Run → Run
  | [], r => r
  | cl :: rest, r =>
    if cl.id = except then broadcastOneExceptLoop wire msg except rest r
    else if wire cl msg then r.sendTo Goroutine.handleConn wire cl msg
    else broadcastOneExceptLoop wire msg except rest (r.sendTo Goroutine.handleConn wire cl msg)

/-- The method `broadcastOneExcept`, as `handleConn` runs it. -/
def Clients.broadcastOneExcept (wire : client → Message → Bool) (c : Clients)
    (msg : Message) (except : UUID) : Run :=
  broadcastOneExceptLoop wire msg except c.getAll (Run.start c)

/-- The writes of the loop of `broadcastOneExcept`: the clients other than
`except` are tried in turn, the failing ones up to the first that succeeds. -/
def oneExceptSends (wire : client → Message → Bool) (msg : Message) (except : UUID) :
    List client → List Send
  | [] => []
  | cl :: rest =>
    if cl.id = except then oneExceptSends wire msg except rest
    else if wire cl msg then [{ dst := cl, msg := msg, ok := true }]
    else { dst := cl, msg := msg, ok := false } :: oneExceptSends wire msg except rest

/-- The package-level state of the server: the map `roomsMap` (as the list
of its entries, with pairwise distinct keys, in the order `range` enumerates
them) and the counter `siteID`. -/
structure Server where
  roomsMap : List (String × Room)
  siteID : Nat
deriving DecidableEq, Repr

/-- The map lookup `roomsMap[roomID]`. -/
def mapGet (m : List (String × Room)) (roomID : String) : Option Room :=
  match m with
  | [] => none
  | e :: rest => if e.1 = roomID then some e.2 else mapGet rest roomID

/-- The map assignment `roomsMap[roomID] = room`: the entry of an existing
key is replaced, a new key gets a new entry. -/
def mapSet (m : List (String × Room)) (roomID : String) (room : Room) :
    List (String × Room) :=
  match m with
  | [] => [(roomID, room)]
  | e :: rest =>
    if e.1 = roomID then (roomID, room) :: rest else e :: mapSet rest roomID room

/-- The function `getOrCreateRoom`; `fresh` is the UUID string `NewRoom`
draws. It returns the room, the flag of the second result and the state. A
room made here has one monitor started for its registry
(`go room.Clients.handle()`). -/
def getOrCreateRoom (s : Server) (roomID : String) (fresh : String) :
    Room × Bool × Server :=
  match mapGet s.roomsMap roomID with
  | some room => (room, false, s)
  | none =>
    let made := NewRoom fresh
    let room : Room := { made with Clients := { made.Clients with monitors := 1 } }
    (room, true, { s with roomsMap := mapSet s.roomsMap roomID room })

/-- The loop of `getRoomByClientID` over the entries of the map: the first
room whose registry has the id among its keys, with the key it is stored
under. -/
def findRoom (m : List (String × Room)) (clientID : UUID) : Option (String × Room) :=
  match m with
  | [] => none
  | e :: rest =>
    if (e.2.Clients.lookup clientID).isSome then some e else findRoom rest clientID

/-- The function `getRoomByClientID`; `none` is the nil pointer. -/
def getRoomByClientID (s : Server) (clientID : UUID) : Option Room :=
  (findRoom s.roomsMap clientID).map (fun e => e.2)

/-- The channel a message read from a connection is put on. -/
inductive Chan where
  | messageChan
  | syncChan
deriving DecidableEq, Repr

/-- One round of the read loop of `handleConn` for the client with id
`clientID`, after `client.read` has returned `msg` without error: a
`docSync` message goes to `syncChan` as it is, any other message has its
`ID` overwritten with `clientID` and goes to `messageChan`. -/
def forward (clientID : UUID) (msg : Message) : Chan × Message :=
  if msg.MsgType = DocSyncMessage then (Chan.syncChan, msg)
  else (Chan.messageChan, { msg with ID := clientID })

/-- What one round of a router leaves behind: the state of the server, the
writes attempted on client connections, the messages put on `syncChan` and
the connections closed. When `hung` is set the round never ends: the router
is blocked for ever in a send on `syncChan`, it takes no further message, and
the other fields tell what had happened when it blocked. -/
structure Step where
  server : Server
  sends : List Send
  syncChan : List Message
  closed : List Nat
  hung : Bool := false
deriving DecidableEq, Repr

/-- A round that does nothing. -/
def Step.idle (s : Server) : Step :=
  { server := s, sends := [], syncChan := [], closed := [] }

/-- Stores what a registry operation did to the room kept under `key`. The
room is shared by pointer in the Go code, so the change of its registry is
seen through the map. -/
def Step.ofRun (s : Server) (key : String) (room : Room) (r : Run) : Step :=
  { server := { s with roomsMap := mapSet s.roomsMap key { room with Clients := r.clients } },
    sends := r.sends, syncChan := r.syncChan, closed := r.closed, hung := r.hung }

/-- The last statement of a round of `handleMsg`:
`room := getRoomByClientID(msg.ID)` followed by
`room.Clients.broadcastAllExcept(msg, msg.ID, room.ID)`. The result is `none`
when no room holds the id: the Go code then dereferences a nil pointer. -/
def relay (wire : client → Message → Bool) (s : Server) (msg : Message) : Option Step :=
  match findRoom s.roomsMap msg.ID with
  | none => none
  | some (key, room) =>
    some (Step.ofRun s key room (room.Clients.broadcastAllExcept wire msg msg.ID))

/-- One round of the loop of `handleMsg` for the message `msg` taken from
`messageChan`. The result is `none` when the round dereferences a nil
pointer. -/
def handleMsg (wire : client → Message → Bool) (s : Server) (msg : Message) : Option Step :=
  if msg.MsgType = JoinMessage then
    match findRoom s.roomsMap msg.ID with
    | none => none
    | some (key, room) =>
      match room.Clients.updateName msg.ID msg.Username with
      | none => none
      | some named =>
        let s1 : Server := { s with roomsMap := mapSet s.roomsMap key { room with Clients := named } }
        match relay wire s1 msg with
        | none => none
        | some st => some { st with syncChan := named.usersMessage :: st.syncChan }
  else if msg.MsgType = "operation" then
    relay wire s msg
  else
    match findRoom s.roomsMap msg.ID with
    | none => none
    | some (_, room) => some { Step.idle s with syncChan := [room.Clients.usersMessage] }

/-- One round of the loop of `handleSync` for the message `syncMsg` taken
from `syncChan`. A `docSync` message is written to the client it names; the
result is `none` when no room holds that id (nil pointer). A `users` message
is written to the clients of the room found for its id and is dropped when
there is no such room. Any other type matches no case. Both broadcasts run
in the goroutine of `handleSync`: after a failed write the round is `hung`
in the send of `delete` and never ends. -/
def handleSync (wire : client → Message → Bool) (s : Server) (syncMsg : Message) :
    Option Step :=
  if syncMsg.MsgType = DocSyncMessage then
    match findRoom s.roomsMap syncMsg.ID with
    | none => none
    | some (key, room) =>
      some (Step.ofRun s key room (room.Clients.broadcastOne Goroutine.handleSync wire syncMsg
        syncMsg.ID))
  else if syncMsg.MsgType = UsersMessage then
    match findRoom s.roomsMap syncMsg.ID with
    | none => some (Step.idle s)
    | some (key, room) =>
      some (Step.ofRun s key room (room.Clients.broadcastAll wire syncMsg))
  else some (Step.idle s)

/-! ### Accepting a connection -/

/-- The Go type `int` of the counter `siteID`, as the 64-bit pattern it is
stored in: adding one wraps around at `2 ^ 64`. -/
def nextSiteID (n : Nat) : Nat :=
  (n + 1) % 2 ^ 64

/-- The function `strconv.Itoa` on the 64-bit pattern of an `int`: patterns
from `2 ^ 63` on are the negative numbers. -/
def Itoa (x : Nat) : String :=
  if x < 2 ^ 63 then toString x else "-" ++ toString (2 ^ 64 - x)

/-- The digit a character stands for. -/
def digitValue (c : Char) : Nat :=
  c.toNat - 48

/-- The number a decimal rendering stands for. -/
def Atoi (text : String) : Nat :=
  text.data.foldl (fun acc c => 10 * acc + digitValue c) 0

/-- What one call of `handleConn` is given once the upgrade has succeeded:
the connection, the id `uuid.New()` draws for the client, the `room` parameter
of the URL, and the UUID string `NewRoom` draws if the room has to be made. -/
structure Dial where
  Conn : Nat
  clientID : UUID
  roomID : String
  fresh : String
deriving DecidableEq, Repr

/-- The function `handleConn` from the upgraded connection up to the read
loop. Without a room name the connection is closed and nothing else happens.
Otherwise the room is looked up or made; when the second result of
`getOrCreateRoom` is `false` a monitor is started (`if !exists`); the counter
`siteID` is advanced and rendered into the new client; the client is added to
the registry of the room; the `siteID` message is written to the new client,
the `docReq` message to one other client of the room, and the usernames are
put on `syncChan`. The result is the client that was made, if any, and what
the call left behind. -/
def handleConn (wire : client → Message → Bool) (s : Server) (q : Dial) :
    Option client × Step :=
  if q.roomID = "" then (none, { Step.idle s with closed := [q.Conn] })
  else
    match getOrCreateRoom s q.roomID q.fresh with
    | (room, createdNow, s1) =>
      let watched : Clients :=
        if !createdNow then { room.Clients with monitors := room.Clients.monitors + 1 }
        else room.Clients
      let n := nextSiteID s1.siteID
      let cl : client := { Conn := q.Conn, SiteID := Itoa n, id := q.clientID, Username := "" }
      let siteIDMsg : Message := { MsgType := SiteIDMessage, Text := cl.SiteID, ID := q.clientID }
      let docReq : Message := { MsgType := DocReqMessage, ID := q.clientID }
      let r1 := (watched.add cl).broadcastOne Goroutine.handleConn wire siteIDMsg q.clientID
      let r2 := broadcastOneExceptLoop wire docReq q.clientID r1.clients.getAll r1
      let r3 := r2.sendUsernames Goroutine.handleConn
      (some cl, Step.ofRun { s1 with siteID := n } q.roomID room r3)

/-- The server accepting the connections of the list one after the other:
the state it ends in and the clients it made, in order. -/
def serve (wire : client → Message → Bool) : Server → List Dial → Server × List client
  | s, [] => (s, [])
  | s, q :: qs =>
    match handleConn wire s q with
    | (some cl, st) => ((serve wire st.server qs).1, cl :: (serve wire st.server qs).2)
    | (none, st) => serve wire st.server qs

/-- The number of monitors started so far for the registry of the room kept
under `roomID`; zero when there is no such room. -/
def monitorsOf (s : Server) (roomID : String) : Nat :=
  match mapGet s.roomsMap roomID with
  | some room => room.Clients.monitors
  | none => 0

/-- The server at start-up: no room, counter at zero. -/
def freshServer : Server :=
  { roomsMap := [], siteID := 0 }

/-! ### The lock of a registry -/

/-- The state of the `sync.RWMutex` of a registry: how many read locks are
held and whether the write lock is held. -/
structure RWMutex where
  readers : Nat
  writer : Bool
deriving DecidableEq, Repr

/-- A lock nobody holds. -/
def RWMutex.free : RWMutex :=
  { readers := 0, writer := false }

/-- The method `RLock`; `none` when the caller has to wait, which in a run
of one goroutine means for ever. -/
def RWMutex.RLock (m : RWMutex) : Option RWMutex :=
  if m.writer then none else some { m with readers := m.readers + 1 }

/-- The method `RUnlock`; `none` is the fatal error of unlocking a lock that
is not read-locked. -/
def RWMutex.RUnlock (m : RWMutex) : Option RWMutex :=
  if m.readers = 0 then none else some { m with readers := m.readers - 1 }

/-- The method `Lock`; `none` when the caller has to wait for ever. -/
def RWMutex.Lock (m : RWMutex) : Option RWMutex :=
  if m.writer ∨ 0 < m.readers then none else some { m with writer := true }

/-- The method `Unlock`; `none` is the fatal error of unlocking a lock that
is not write-locked. -/
def RWMutex.Unlock (m : RWMutex) : Option RWMutex :=
  if m.writer then some { m with writer := false } else none

/-- A registry together with the state of its lock `mu`. -/
structure Guarded where
  mu : RWMutex
  clients : Clients
deriving DecidableEq, Repr

/-- The method `close` with its lock operations, statement by statement: the
read lock is taken; a registered client has its connection closed, the read
lock is released and the client is deleted under the write lock; for an id
that is not registered the method returns at once, from inside the read lock.
`none` when the method never returns. -/
def Guarded.close (g : Guarded) (id : UUID) : Option Guarded :=
  match g.mu.RLock with
  | none => none
  | some m1 =>
    match g.clients.lookup id with
    | some _ =>
      match m1.RUnlock with
      | none => none
      | some m2 =>
        match m2.Lock with
        | none => none
        | some m3 =>
          match m3.Unlock with
          | none => none
          | some m4 =>
            some { mu := m4,
                   clients := { g.clients with
                     list := g.clients.list.filter (fun x => x.id != id) } }
    | none => some { mu := m1, clients := g.clients }

/-- The monitor's handling of an `add` request with its lock operations:
the write lock is held around the assignment. -/
def Guarded.add (g : Guarded) (cl : client) : Option Guarded :=
  match g.mu.Lock with
  | none => none
  | some m1 =>
    match m1.Unlock with
    | none => none
    | some m2 => some { mu := m2, clients := g.clients.add cl }

/-! ### Sample states -/

/-- A client named ann, in the sample room. -/
def ann : client := { Conn := 1, SiteID := "1", id := 11, Username := "ann" }

/-- A client named bob, in the sample room. -/
def bob : client := { Conn := 2, SiteID := "2", id := 12, Username := "bob" }

/-- A client named cem, in the sample room. -/
def cem : client := { Conn := 3, SiteID := "3", id := 13, Username := "cem" }

/-- A client named dora, alone in a second room. -/
def dora : client := { Conn := 4, SiteID := "4", id := 14, Username := "dora" }

/-- A room with three clients. -/
def sampleRoom : Room :=
  { ID := "r-1", Clients := { list := [ann, bob, cem], monitors := 1 } }

/-- A room with one client. -/
def otherRoom : Room :=
  { ID := "r-2", Clients := { list := [dora], monitors := 1 } }

/-- A server with the two sample rooms, after four connections. -/
def sampleServer : Server :=
  { roomsMap := [("alpha", sampleRoom), ("beta", otherRoom)], siteID := 4 }

/-- A pattern of writes in which only the connection of bob fails. -/
def bobFails : client → Message → Bool :=
  fun cl _ => cl.id != 12

/-- A pattern of writes in which only the connection of cem fails. -/
def cemFails : client → Message → Bool :=
  fun cl _ => cl.id != 13

/-- A pattern of writes in which every write succeeds. -/
def allWritten : client → Message → Bool :=
  fun _ _ => true

/-- A first connection to the room alpha. -/
def dialAnn : Dial := { Conn := 1, clientID := 11, roomID := "alpha", fresh := "r-1" }

/-- A second connection to the room alpha. -/
def dialBob : Dial := { Conn := 2, clientID := 12, roomID := "alpha", fresh := "r-2" }

/-- A connection that names no room. -/
def dialNobody : Dial := { Conn := 3, clientID := 13, roomID := "", fresh := "r-3" }

/-- A first connection to the room beta. -/
def dialDora : Dial := { Conn := 4, clientID := 14, roomID := "beta", fresh := "r-4" }

end server

/-! ## Part III: theorems about the document model -/

namespace crdt

theorem modifyAt_length (f : Character → Character) (pre : List Character) (x : Character)
    (rest : List Character) :
    modifyAt f pre.length (pre ++ x :: rest) = pre ++ f x :: rest := by
  induction pre with
  | nil => rfl
  | cons a pre ih => simp [modifyAt, ih]

theorem positionIn_split (id : String) (cs : List Character) (i : Nat)
    (h : positionIn id cs = some i) :
    ∃ pre c post, cs = pre ++ c :: post ∧ pre.length = i ∧ c.ID = id := by
  induction cs generalizing i with
  | nil => simp [positionIn] at h
  | cons a cs ih =>
    unfold positionIn at h
    split at h
    · rename_i ha
      cases h
      exact ⟨[], a, cs, rfl, rfl, ha⟩
    · cases hp : positionIn id cs with
      | none => simp [hp] at h
      | some k =>
        simp [hp] at h
        obtain ⟨pre, c, post, h1, h2, h3⟩ := ih k hp
        exact ⟨a :: pre, c, post, by simp [h1], by simp [h2, h], h3⟩

theorem localInsert_split (pre post : List Character) (p n char : Character) :
    (Document.mk (pre ++ p :: n :: post)).LocalInsert char (pre.length + 1)
      = .ok ⟨pre ++ { p with CN := char.ID } :: char :: { n with CP := char.ID } :: post⟩ := by
  unfold Document.LocalInsert
  have hlen : ¬ (pre.length + 1 = 0 ∨ (Document.mk (pre ++ p :: n :: post)).Length ≤ pre.length + 1) := by
    simp [Document.Length]
  rw [if_neg hlen]
  have htake : (pre ++ p :: n :: post).take (pre.length + 1) = pre ++ [p] := by
    rw [List.take_append_eq_append_take]; simp
  have hdrop : (pre ++ p :: n :: post).drop (pre.length + 1) = n :: post := by
    rw [List.drop_append_eq_append_drop]; simp
  simp only [htake, hdrop, setCN, setCP, Nat.add_sub_cancel]
  have e1 : (pre ++ [p] ++ char :: n :: post) = pre ++ p :: (char :: n :: post) := by simp
  rw [e1, modifyAt_length]
  have e2 : pre ++ { p with CN := char.ID } :: char :: n :: post
      = (pre ++ [{ p with CN := char.ID }, char]) ++ n :: post := by simp
  have e3 : pre.length + 1 + 1 = (pre ++ [{ p with CN := char.ID }, char]).length := by simp
  rw [e2, e3, modifyAt_length]
  simp

/-- C2: in a document where `next` immediately follows `prev` (they are
found at the indexes `i` and `i + 1`), `IntegrateInsert newChar prev next`
succeeds, and the result is the same sequence with `newChar` put between the
two: the character of `prev` has its `CN` set to `newChar.ID`, the character
of `next` has its `CP` set to `newChar.ID`, and the characters before and
after them are unchanged. -/
theorem IntegrateInsert_adjacent (d : Document) (newChar prev next : Character) (i : Nat)
    (hprev : d.Position prev.ID = some i) (hnext : d.Position next.ID = some (i + 1)) :
    ∃ pre p n post,
      d.Characters = pre ++ p :: n :: post ∧ pre.length = i ∧
      p.ID = prev.ID ∧ n.ID = next.ID ∧
      d.IntegrateInsert newChar prev next =
        .ok { Characters := pre ++ { p with CN := newChar.ID } :: newChar ::
                { n with CP := newChar.ID } :: post } := by
  obtain ⟨pre, p, rest, h1, h2, h3⟩ := positionIn_split _ _ _ hprev
  obtain ⟨pre2, n, post2, h4, h5, h6⟩ := positionIn_split _ _ _ hnext
  obtain ⟨cs⟩ := d
  simp only at h1 h4
  have hrest : rest = n :: post2 := by
    have e : (pre ++ p :: rest).drop (i + 1) = (pre2 ++ n :: post2).drop (i + 1) := by
      rw [← h1, ← h4]
    have e1 : (pre ++ p :: rest).drop (i + 1) = rest := by
      rw [← h2, List.drop_append_eq_append_drop]; simp
    have e2 : (pre2 ++ n :: post2).drop (i + 1) = n :: post2 := by
      rw [← h5, List.drop_append_eq_append_drop]; simp
    rw [e1, e2] at e
    exact e
  subst hrest
  refine ⟨pre, p, n, post2, h1, h2, h3, h6, ?_⟩
  have hb : between cs i (i + 1) = [] := by
    simp [between]
  unfold Document.IntegrateInsert integrateInsertFuel
  simp only [Document.Length]
  rw [hprev, hnext]
  simp only [hb, if_true]
  subst h1
  rw [← h2]
  exact localInsert_split pre post2 p n newChar

/-- C2 at the document of `TestIntegrateInsert_BetweenTwoPositions`: the anchors
`1` and `2` are neighbours, and the result is the document the test expects. -/
theorem IntegrateInsert_adjacent_witness :
    let d : Document := { Characters := [
      { ID := "start", Visible := false, Value := "", CP := "", CN := "1" },
      { ID := "1", Visible := false, Value := "c", CP := "start", CN := "2" },
      { ID := "2", Visible := false, Value := "t", CP := "1", CN := "end" },
      { ID := "end", Visible := false, Value := "", CP := "2", CN := "" }] }
    let newChar : Character := { ID := "3", Visible := false, Value := "a", CP := "1", CN := "2" }
    let charPrev : Character := { ID := "1", Visible := false, Value := "c", CP := "start", CN := "2" }
    let charNext : Character := { ID := "2", Visible := false, Value := "t", CP := "1", CN := "end" }
    (∃ pre p n post,
      d.Characters = pre ++ p :: n :: post ∧ pre.length = 1 ∧
      p.ID = charPrev.ID ∧ n.ID = charNext.ID ∧
      d.IntegrateInsert newChar charPrev charNext =
        .ok { Characters := pre ++ { p with CN := newChar.ID } :: newChar ::
                { n with CP := newChar.ID } :: post }) ∧
    d.IntegrateInsert newChar charPrev charNext = .ok { Characters := [
      { ID := "start", Visible := false, Value := "", CP := "", CN := "1" },
      { ID := "1", Visible := false, Value := "c", CP := "start", CN := "3" },
      { ID := "3", Visible := false, Value := "a", CP := "1", CN := "2" },
      { ID := "2", Visible := false, Value := "t", CP := "3", CN := "end" },
      { ID := "end", Visible := false, Value := "", CP := "2", CN := "" }] } :=
  ⟨IntegrateInsert_adjacent _ _ _ _ 1 (by decide) (by decide), by rfl⟩

theorem vals_append (a b : List Character) : vals (a ++ b) = vals a ++ vals b := by
  simp [vals]

theorem vals_modifyAt (f : Character → Character)
    (hf : ∀ c, (f c).Visible = c.Visible ∧ (f c).Value = c.Value) (i : Nat)
    (cs : List Character) : vals (modifyAt f i cs) = vals cs := by
  induction cs generalizing i with
  | nil => cases i <;> rfl
  | cons c cs ih =>
    cases i with
    | zero =>
      simp only [modifyAt, vals, List.filter_cons, (hf c).1]
      split <;> simp [(hf c).2]
    | succ i =>
      have := ih i
      simp only [modifyAt, vals, List.filter_cons] at this ⊢
      split <;> simp [this]

theorem localInsert_vals (d : Document) (char : Character) (p : Nat)
    (hp : 0 < p) (hlt : p < d.Length) :
    ∃ d1, d.LocalInsert char p = .ok d1 ∧
      vals d1.Characters = vals (d.Characters.take p) ++
        vals [char] ++ vals (d.Characters.drop p) := by
  unfold Document.LocalInsert
  have h : ¬ (p = 0 ∨ d.Length ≤ p) := by omega
  rw [if_neg h]
  refine ⟨_, rfl, ?_⟩
  simp only [setCP, setCN]
  rw [vals_modifyAt (fun c => { c with CP := char.ID }) (fun c => ⟨rfl, rfl⟩),
    vals_modifyAt (fun c => { c with CN := char.ID }) (fun c => ⟨rfl, rfl⟩)]
  rw [vals_append]
  have : char :: d.Characters.drop p = [char] ++ d.Characters.drop p := rfl
  rw [this, vals_append, List.append_assoc]

theorem positionIn_of_nodup (cs : List Character) (n : Nat) (c : Character)
    (hnd : (cs.map (fun c => c.ID)).Nodup) (hc : cs.get? n = some c) :
    positionIn c.ID cs = some n := by
  induction cs generalizing n with
  | nil => simp at hc
  | cons a cs ih =>
    rw [List.map_cons, List.nodup_cons] at hnd
    cases n with
    | zero =>
      simp at hc
      subst hc
      simp [positionIn]
    | succ n =>
      simp at hc
      have hmem : c ∈ cs := List.getElem?_mem hc
      have hne : a.ID ≠ c.ID := by
        intro h
        apply hnd.1
        rw [h]
        exact List.mem_map_of_mem _ hmem
      unfold positionIn
      rw [if_neg hne, ih n hnd.2 (by simpa using hc)]

theorem positionIn_lt (id : String) (cs : List Character) (i : Nat)
    (h : positionIn id cs = some i) : i < cs.length := by
  obtain ⟨pre, c, post, h1, h2, _⟩ := positionIn_split id cs i h
  rw [h1, ← h2]
  simp

theorem scanGreater_lt (d : Document) (i j : Nat) (id : String) (S : List Character) (k : Nat)
    (h : scanGreater d i j id S = some k) : k < S.length := by
  induction S generalizing k with
  | nil => simp [scanGreater] at h
  | cons c cs ih =>
    unfold scanGreater at h
    split at h
    · cases h; simp
    · cases hs : scanGreater d i j id cs with
      | none => simp [hs] at h
      | some k1 =>
        simp [hs] at h
        subst h
        have := ih k1 hs
        simp
        omega

theorem between_get (cs : List Character) (i j k : Nat)
    (hk : i + 1 + k < j) : (between cs i j).get? k = cs.get? (i + 1 + k) := by
  unfold between
  simp only [List.get?_eq_getElem?]
  rw [List.getElem?_drop, List.getElem?_take]
  simp [hk]

theorem between_length (cs : List Character) (i j : Nat) (hj : j ≤ cs.length) :
    (between cs i j).length = j - (i + 1) := by
  unfold between
  simp [List.length_drop, List.length_take, hj]

/-- With distinct ids, anchors found at the indexes `i < j` and two rounds of
fuel, the integration is the insertion at `landingIndex`. -/
theorem integrate_exact (fuel : Nat) (d : Document) (char prev next : Character) (i j : Nat)
    (hnd : (d.Characters.map (fun c => c.ID)).Nodup)
    (hi : d.Position prev.ID = some i) (hj : d.Position next.ID = some j) (hij : i < j) :
    integrateInsertFuel (fuel + 2) d char prev next =
      d.LocalInsert char (landingIndex d i j char.ID) := by
  have hjlt : j < d.Characters.length := positionIn_lt _ _ _ hj
  have hadj : ∀ (a b : Character) (n : Nat), d.Position a.ID = some n →
      d.Position b.ID = some (n + 1) →
      integrateInsertFuel (fuel + 1) d char a b = d.LocalInsert char (n + 1) := by
    intro a b n h1 h2
    unfold integrateInsertFuel
    simp only [h1, h2]
    have hb0 : between d.Characters n (n + 1) = [] := by simp [between]
    simp [hb0]
  have hpos : ∀ (n : Nat) (c : Character), d.Characters.get? n = some c →
      d.Position c.ID = some n := fun n c h => positionIn_of_nodup _ _ _ hnd h
  unfold integrateInsertFuel landingIndex
  simp only [hi, hj]
  by_cases hS : between d.Characters i j = []
  · simp [hS]
  · rw [if_neg hS, if_neg hS]
    by_cases hL : (between d.Characters i j).filter (inL d i j) = []
    · simp [hL]
    · rw [if_neg hL, if_neg hL]
      have hSlen := between_length d.Characters i j (by omega)
      cases hscan : scanGreater d i j char.ID (between d.Characters i j) with
      | some k =>
        simp only []
        have hk := scanGreater_lt _ _ _ _ _ _ hscan
        rw [hSlen] at hk
        have hgk : (between d.Characters i j).get? k = d.Characters.get? (i + 1 + k) :=
          between_get _ _ _ _ (by omega)
        obtain ⟨nc, hnc⟩ : ∃ nc, d.Characters.get? (i + 1 + k) = some nc := by
          have : i + 1 + k < d.Characters.length := by omega
          exact ⟨d.Characters.get ⟨_, this⟩, List.get?_eq_get this⟩
        have hnext : (between d.Characters i j).getD k next = nc := by
          rw [List.getD_eq_getElem?_getD, ← List.get?_eq_getElem?, hgk, hnc]; rfl
        rw [hnext]
        cases k with
        | zero =>
          simp only [List.getD_cons_zero]
          exact hadj prev nc i hi (hpos _ _ (by simpa using hnc))
        | succ k =>
          simp only [List.getD_cons_succ]
          have hgk1 : (between d.Characters i j).get? k = d.Characters.get? (i + 1 + k) :=
            between_get _ _ _ _ (by omega)
          obtain ⟨qc, hqc⟩ : ∃ qc, d.Characters.get? (i + 1 + k) = some qc := by
            have : i + 1 + k < d.Characters.length := by omega
            exact ⟨d.Characters.get ⟨_, this⟩, List.get?_eq_get this⟩
          have hprev : (between d.Characters i j).getD k prev = qc := by
            rw [List.getD_eq_getElem?_getD, ← List.get?_eq_getElem?, hgk1, hqc]; rfl
          rw [hprev]
          have := hadj qc nc (i + 1 + k) (hpos _ _ hqc) (hpos _ _ (by rw [← hnc]; congr 1))
          rw [this]
          congr 1
          omega
      | none =>
        simp only []
        have hlast : ∃ qc, (between d.Characters i j).getLastD prev = qc ∧
            d.Characters.get? (j - 1) = some qc := by
          have hne := hS
          have hpos : 0 < (between d.Characters i j).length := List.length_pos.mpr hne
          have hg : (between d.Characters i j).get? (j - (i + 1) - 1)
              = d.Characters.get? (i + 1 + (j - (i + 1) - 1)) :=
            between_get _ _ _ _ (by omega)
          have e : i + 1 + (j - (i + 1) - 1) = j - 1 := by omega
          rw [e] at hg
          obtain ⟨qc, hqc⟩ : ∃ qc, d.Characters.get? (j - 1) = some qc := by
            have : j - 1 < d.Characters.length := by omega
            exact ⟨d.Characters.get ⟨_, this⟩, List.get?_eq_get this⟩
          refine ⟨qc, ?_, hqc⟩
          rw [hqc] at hg
          have : (between d.Characters i j).getLast? = some qc := by
            rw [List.getLast?_eq_getElem?, ← List.get?_eq_getElem?, hSlen, hg]
          rw [List.getLastD_eq_getLast?, this]; rfl
        obtain ⟨qc, hq1, hq2⟩ := hlast
        rw [hq1]
        have hj1 : d.Position next.ID = some (j - 1 + 1) := by
          rw [hj]; congr 1; omega
        have := hadj qc next (j - 1) (hpos _ _ hq2) hj1
        rw [this]
        congr 1
        omega

theorem landingIndex_bounds (d : Document) (i j : Nat) (id : String)
    (hij : i < j) (hj : j ≤ d.Characters.length) :
    i < landingIndex d i j id ∧ landingIndex d i j id ≤ j := by
  unfold landingIndex
  split
  · omega
  · split
    · omega
    · cases hscan : scanGreater d i j id (between d.Characters i j) with
      | some k =>
        have hk := scanGreater_lt _ _ _ _ _ _ hscan
        rw [between_length _ _ _ hj] at hk
        simp only []
        omega
      | none =>
        simp only []
        omega

/-- With distinct ids, anchors found at the indexes `i < j` and two rounds of
fuel, the integration is an insertion at an index `p` with `i < p ≤ j`. -/
theorem integrate_lands (fuel : Nat) (d : Document) (char prev next : Character) (i j : Nat)
    (hnd : (d.Characters.map (fun c => c.ID)).Nodup)
    (hi : d.Position prev.ID = some i) (hj : d.Position next.ID = some j) (hij : i < j) :
    ∃ p, i < p ∧ p ≤ j ∧
      integrateInsertFuel (fuel + 2) d char prev next = d.LocalInsert char p := by
  have hjlt : j < d.Characters.length := positionIn_lt _ _ _ hj
  obtain ⟨b1, b2⟩ := landingIndex_bounds d i j char.ID hij (by omega)
  exact ⟨_, b1, b2, integrate_exact fuel d char prev next i j hnd hi hj hij⟩

theorem filter_get_index (l : List Character) (k : Nat) (x : Character)
    (h : (l.filter (fun c => c.Visible)).get? k = some x) :
    ∃ i, l.get? i = some x ∧ ((l.take i).filter (fun c => c.Visible)).length = k ∧
      x.Visible = true := by
  induction l generalizing k with
  | nil => simp at h
  | cons a l ih =>
    by_cases ha : a.Visible = true
    · rw [List.filter_cons_of_pos ha] at h
      cases k with
      | zero =>
        simp at h
        subst h
        exact ⟨0, by simp, by simp, ha⟩
      | succ k =>
        simp only [List.get?_cons_succ] at h
        obtain ⟨i, h1, h2, h3⟩ := ih k h
        exact ⟨i + 1, by simpa using h1, by simp [List.filter_cons_of_pos ha, h2], h3⟩
    · rw [List.filter_cons_of_neg ha] at h
      obtain ⟨i, h1, h2, h3⟩ := ih k h
      exact ⟨i + 1, by simpa using h1, by simp [List.filter_cons_of_neg ha, h2], h3⟩

theorem filter_take_mono (l : List Character) (a b : Nat) (hab : a ≤ b) :
    ((l.take a).filter (fun c => c.Visible)).length ≤
      ((l.take b).filter (fun c => c.Visible)).length := by
  have h : (l.take a).Sublist (l.take b) := by
    have : l.take a = (l.take b).take a := by
      rw [List.take_take, Nat.min_eq_left hab]
    rw [this]
    exact List.take_sublist _ _
  exact (h.filter _).length_le

theorem vals_length (l : List Character) :
    (vals l).length = (l.filter (fun c => c.Visible)).length := by
  simp [vals]

theorem vals_split (l : List Character) (p n : Nat) (h : (vals (l.take p)).length = n) :
    vals (l.take p) = (vals l).take n ∧ vals (l.drop p) = (vals l).drop n := by
  have e : vals l = vals (l.take p) ++ vals (l.drop p) := by
    rw [← vals_append, List.take_append_drop]
  rw [e, ← h]
  simp

theorem take_succ_filter_of_get (l : List Character) (i : Nat) (x : Character)
    (h : l.get? i = some x) :
    (l.take (i + 1)).filter (fun c => c.Visible) =
      (l.take i).filter (fun c => c.Visible) ++ (if x.Visible then [x] else []) := by
  rw [List.take_succ]
  simp only [List.get?_eq_getElem?] at h
  rw [h]
  simp only [Option.toList, List.filter_append]
  congr 1
  cases hx : x.Visible <;> simp [hx]

/-- The local insertion at a visible position of a valid document: it
succeeds and the visible values get `v` at offset `pos - 1`. -/
theorem insert_visibleValues (d : Document) (s e : Character) (mid : List Character)
    (siteID : String) (clock pos : Nat) (v : String)
    (hchars : d.Characters = s :: mid ++ [e])
    (hs : s.Visible = false) (he : e.Visible = false)
    (hnd : (d.Characters.map (fun c => c.ID)).Nodup)
    (h1 : 1 ≤ pos) (h2 : pos ≤ d.visibleValues.length + 1) :
    ∃ d1, d.Insert siteID clock pos v = .ok (d1, Content d1) ∧
      d1.visibleValues =
        d.visibleValues.take (pos - 1) ++ v :: d.visibleValues.drop (pos - 1) := by
  have hvv : ∀ x : Document, x.visibleValues = vals x.Characters := fun _ => rfl
  have hvl : d.visible.length = d.visibleValues.length := by
    simp [Document.visibleValues]
  have hlen : d.Characters.length = mid.length + 2 := by simp [hchars]
  -- the anchor before the position
  have hA : ∃ prev i, d.IthVisible (pos - 1) = some prev ∧ d.Characters.get? i = some prev ∧
      ((d.Characters.take (i + 1)).filter (fun c => c.Visible)).length = pos - 1 := by
    by_cases h0 : pos - 1 = 0
    · refine ⟨s, 0, ?_, by simp [hchars], ?_⟩
      · simp [Document.IthVisible, h0, hchars]
      · rw [h0, hchars]; simp [hs]
    · have hle : pos - 1 ≤ d.visible.length := by omega
      have hlt : pos - 1 - 1 < d.visible.length := by omega
      obtain ⟨x, hx⟩ : ∃ x, d.visible.get? (pos - 1 - 1) = some x :=
        ⟨d.visible.get ⟨_, hlt⟩, List.get?_eq_get hlt⟩
      obtain ⟨i, g1, g2, g3⟩ := filter_get_index d.Characters _ x hx
      refine ⟨x, i, ?_, g1, ?_⟩
      · simp only [Document.IthVisible, h0, if_false, hle, if_true, hx]
      · rw [take_succ_filter_of_get _ _ _ g1, g3]
        simp [g2]
        omega
  -- the anchor at the position
  have hB : ∃ next j, d.IthVisible pos = some next ∧ d.Characters.get? j = some next ∧
      ((d.Characters.take j).filter (fun c => c.Visible)).length = pos - 1 ∧ 0 < j := by
    have h0 : ¬ pos = 0 := by omega
    by_cases hle : pos ≤ d.visible.length
    · have hlt : pos - 1 < d.visible.length := by omega
      obtain ⟨x, hx⟩ : ∃ x, d.visible.get? (pos - 1) = some x :=
        ⟨d.visible.get ⟨_, hlt⟩, List.get?_eq_get hlt⟩
      obtain ⟨j, g1, g2, g3⟩ := filter_get_index d.Characters _ x hx
      refine ⟨x, j, ?_, g1, g2, ?_⟩
      · simp only [Document.IthVisible, h0, if_false, hle, if_true, hx]
      · rcases Nat.eq_zero_or_pos j with hj | hj
        · subst hj
          rw [hchars] at g1
          simp at g1
          rw [← g1, hs] at g3
          simp at g3
        · exact hj
    · have heq : pos = d.visible.length + 1 := by omega
      refine ⟨e, mid.length + 1, ?_, ?_, ?_, by omega⟩
      · simp only [Document.IthVisible, h0, if_false, hle, heq, if_true]
        rw [hchars]
        have : s :: mid ++ [e] = (s :: mid) ++ [e] := rfl
        rw [this, List.getLast?_append]
        simp
      · rw [hchars]
        have : s :: mid ++ [e] = (s :: mid) ++ [e] := rfl
        rw [this, List.get?_eq_getElem?, List.getElem?_append_right (by simp)]
        simp
      · have ht : d.Characters.take (mid.length + 1) = s :: mid := by
          rw [hchars]
          have : s :: mid ++ [e] = (s :: mid) ++ [e] := rfl
          rw [this, List.take_append_eq_append_take]
          simp
        have hv : d.visible = (s :: mid).filter (fun c => c.Visible) := by
          unfold Document.visible
          rw [hchars]
          have : s :: mid ++ [e] = (s :: mid) ++ [e] := rfl
          rw [this, List.filter_append]
          simp [he]
        rw [ht, heq, hv]
        simp
  obtain ⟨prev, i, a1, a2, a3⟩ := hA
  obtain ⟨next, j, b1, b2, b3, b4⟩ := hB
  have hjlt : j < d.Characters.length := by
    have := List.get?_eq_some.mp b2
    exact this.1
  have hij : i < j := by
    by_contra hcon
    have hji : j ≤ i := by omega
    by_cases h0 : pos - 1 = 0
    · -- prev is the first sentinel, next comes later
      have m1 := filter_take_mono d.Characters j (i + 1) (by omega)
      -- both counts are zero, so use the identity of the characters instead
      have hi0 : i = 0 ∨ 0 < i := Nat.eq_zero_or_pos i
      rcases hi0 with hi0 | hi0
      · omega
      · -- i > 0 and pos - 1 = 0 : prev is s at index 0 by nodup
        have hprev : d.IthVisible (pos - 1) = some s := by
          simp [Document.IthVisible, h0, hchars]
        rw [hprev] at a1
        cases a1
        have p0 : positionIn s.ID d.Characters = some 0 :=
          positionIn_of_nodup _ 0 s hnd (by simp [hchars])
        have p1 : positionIn s.ID d.Characters = some i :=
          positionIn_of_nodup _ i s hnd a2
        rw [p0] at p1
        cases p1
        omega
    · have hprevvis : ((d.Characters.take i).filter (fun c => c.Visible)).length < pos - 1 := by
        have hle : pos - 1 ≤ d.visible.length := by omega
        have hlt : pos - 1 - 1 < d.visible.length := by omega
        have := take_succ_filter_of_get _ _ _ a2
        rw [this] at a3
        simp at a3
        split at a3
        · simp at a3; omega
        · -- prev invisible: then it is not a visible element, contradiction with IthVisible
          rename_i hvis
          simp only [Document.IthVisible, h0, if_false, hle, if_true] at a1
          have := List.get?_mem a1
          simp [Document.visible] at this
          exact absurd this.2 hvis
      have m1 := filter_take_mono d.Characters j i hji
      omega
  obtain ⟨p, p1, p2, p3⟩ := integrate_lands (d.Length - 1) d
    { ID := mintID (clock + 1) siteID, Visible := true, Value := v, CP := prev.ID, CN := next.ID }
    prev next i j hnd
    (positionIn_of_nodup _ _ _ hnd a2) (positionIn_of_nodup _ _ _ hnd b2) hij
  have hfuel : d.Length + 1 = d.Length - 1 + 2 := by
    simp [Document.Length, hlen]
  obtain ⟨d1, q1, q2⟩ := localInsert_vals d
    { ID := mintID (clock + 1) siteID, Visible := true, Value := v, CP := prev.ID, CN := next.ID }
    p (by omega) (by simp [Document.Length]; omega)
  have hcount : (vals (d.Characters.take p)).length = pos - 1 := by
    rw [vals_length]
    have m1 := filter_take_mono d.Characters (i + 1) p (by omega)
    have m2 := filter_take_mono d.Characters p j p2
    omega
  obtain ⟨s1, s2⟩ := vals_split d.Characters p (pos - 1) hcount
  refine ⟨d1, ?_, ?_⟩
  · unfold Document.Insert
    have hc : ¬ (pos = 0 ∨ d.visible.length + 1 < pos) := by omega
    rw [if_neg hc]
    simp only [a1, b1]
    unfold Document.IntegrateInsert
    rw [hfuel, p3, q1]
  · rw [hvv, q2, s1, s2, hvv]
    simp [vals]

theorem flatten_take_single (l : List String) (k : Nat) (h : ∀ x ∈ l, x.length = 1) :
    ((l.map String.data).flatten).take k = ((l.take k).map String.data).flatten ∧
    ((l.map String.data).flatten).drop k = ((l.drop k).map String.data).flatten := by
  induction l generalizing k with
  | nil => simp
  | cons a l ih =>
    cases k with
    | zero => simp
    | succ k =>
      have ha : a.data.length = 1 := h a (List.mem_cons_self _ _)
      obtain ⟨c, hc⟩ : ∃ c, a.data = [c] := List.length_eq_one.mp ha
      have := ih k (fun x hx => h x (List.mem_cons_of_mem _ hx))
      simp [hc, this.1, this.2]

/-- C5: the document of `New()` is exactly the two sentinels, has length 2 and
empty content. For a document that starts and ends with an invisible
sentinel and has pairwise distinct ids, and a position `pos` with
`1 ≤ pos ≤ |s| + 1` where `s` is the visible content, `Insert(pos, v)`
succeeds and returns the content of the new document; the visible values are
the old ones with `v` put at offset `pos - 1`, and when every visible value is
a single code point the content is the old content with `v` put at index
`pos - 1`. In particular `Insert(1, "a")` on `New()` returns `"a"`. -/
theorem Insert_at_visible_position (d : Document) (s e : Character) (mid : List Character)
    (siteID : String) (clock pos : Nat) (v : String)
    (hchars : d.Characters = s :: mid ++ [e])
    (hs : s.Visible = false) (he : e.Visible = false)
    (hnd : (d.Characters.map (fun c => c.ID)).Nodup)
    (h1 : 1 ≤ pos) (h2 : pos ≤ d.visibleValues.length + 1) :
    New.Characters = [startChar, endChar] ∧ New.Length = 2 ∧ Content New = "" ∧
    (∃ d1, d.Insert siteID clock pos v = .ok (d1, Content d1) ∧
      d1.visibleValues =
        d.visibleValues.take (pos - 1) ++ v :: d.visibleValues.drop (pos - 1) ∧
      ((∀ c ∈ d.Characters, c.Visible = true → c.Value.length = 1) →
        (Content d1).data =
          (Content d).data.take (pos - 1) ++ v.data ++ (Content d).data.drop (pos - 1))) ∧
    (∃ d1, New.Insert siteID clock 1 "a" = .ok (d1, "a")) := by
  refine ⟨rfl, rfl, rfl, ?_, ?_⟩
  · obtain ⟨d1, g1, g2⟩ := insert_visibleValues d s e mid siteID clock pos v hchars hs he hnd h1 h2
    refine ⟨d1, g1, g2, ?_⟩
    intro hsingle
    have hall : ∀ x ∈ d.visibleValues, x.length = 1 := by
      intro x hx
      simp only [Document.visibleValues, Document.visible, List.mem_map, List.mem_filter] at hx
      obtain ⟨c, ⟨hc1, hc2⟩, hc3⟩ := hx
      rw [← hc3]
      exact hsingle c hc1 hc2
    obtain ⟨t1, t2⟩ := flatten_take_single d.visibleValues (pos - 1) hall
    simp only [Content, String.data_join]
    rw [g2, t1, t2]
    simp
  · obtain ⟨d1, g1, g2⟩ := insert_visibleValues New startChar endChar [] siteID clock 1 "a"
      rfl rfl rfl (by decide) (le_refl _) (by decide)
    refine ⟨d1, ?_⟩
    rw [g1]
    have : Content d1 = "a" := by
      unfold Content
      rw [g2]
      decide
    rw [this]

/-- C5 at a document with content `ct` and a tombstone between the two visible
characters: inserting `a` at position 2 returns `cat`. -/
theorem Insert_at_visible_position_witness :
    let s : Character := { ID := "start", Visible := false, Value := "", CP := "", CN := "1" }
    let mid : List Character := [
      { ID := "1", Visible := true, Value := "c", CP := "start", CN := "2" },
      { ID := "2", Visible := false, Value := "x", CP := "1", CN := "3" },
      { ID := "3", Visible := true, Value := "t", CP := "2", CN := "end" }]
    let e : Character := { ID := "end", Visible := false, Value := "", CP := "3", CN := "" }
    let d : Document := { Characters := s :: mid ++ [e] }
    s.Visible = false ∧ e.Visible = false ∧ (d.Characters.map (fun c => c.ID)).Nodup ∧
    1 ≤ 2 ∧ 2 ≤ d.visibleValues.length + 1 ∧
    (d.Insert "7" 3 2 "a").map Prod.snd = .ok "cat" ∧
    (∃ d1, d.Insert "7" 3 2 "a" = .ok (d1, Content d1) ∧
      d1.visibleValues =
        d.visibleValues.take (2 - 1) ++ "a" :: d.visibleValues.drop (2 - 1) ∧
      ((∀ c ∈ d.Characters, c.Visible = true → c.Value.length = 1) →
        (Content d1).data =
          (Content d).data.take (2 - 1) ++ "a".data ++ (Content d).data.drop (2 - 1))) :=
  ⟨rfl, rfl, by decide, by decide, by decide, by rfl,
    (Insert_at_visible_position _ _ _ _ "7" 3 2 "a" rfl rfl rfl (by decide) (by decide)
      (by decide)).2.2.2.1⟩

theorem expect_append (lit k : List Char) : expect lit (lit ++ k) = some k := by
  induction lit with
  | nil => cases k <;> rfl
  | cons l ls ih => simp [expect, ih]

theorem readEscaped_putEscaped (cs k : List Char) :
    readEscaped (putEscaped cs (quoteChar :: k)) = some (cs, k) := by
  induction cs with
  | nil =>
    unfold putEscaped readEscaped
    rw [if_pos rfl]
  | cons c cs ih =>
    unfold putEscaped
    by_cases h : c = quoteChar ∨ c = escapeChar
    · rw [if_pos h]
      have hne : escapeChar ≠ quoteChar := by decide
      unfold readEscaped
      rw [if_neg hne, if_pos rfl]
      simp only [ih]
    · rw [if_neg h]
      have h1 : c ≠ quoteChar := fun hc => h (Or.inl hc)
      have h2 : c ≠ escapeChar := fun hc => h (Or.inr hc)
      unfold readEscaped
      rw [if_neg h1, if_neg h2]
      simp only [ih]

theorem readString_putString (s : String) (k : List Char) :
    readString (putString s k) = some (s, k) := by
  unfold readString putString
  simp only [if_true, readEscaped_putEscaped]

theorem readBool_putBool (b : Bool) (k : List Char) :
    readBool (putBool b k) = some (b, k) := by
  cases b with
  | true =>
    unfold readBool putBool
    simp only [if_true, expect_append]
  | false =>
    have h : expect "true".data ("false".data ++ k) = none := by
      simp [expect]
    unfold readBool putBool
    simp only [Bool.false_eq_true, if_false, h, expect_append]

theorem readCharacter_putCharacter (c : Character) (k : List Char) :
    readCharacter (putCharacter c k) = some (c, k) := by
  unfold readCharacter putCharacter
  simp only [expect_append, readString_putString, readBool_putBool, Option.bind_eq_bind,
    Option.some_bind]

theorem expect_putCharacter_none (lit : List Char) (c : Character) (k : List Char)
    (h : lit.head? ≠ some (Char.ofNat 123)) (hl : lit ≠ []) :
    expect lit (putCharacter c k) = none := by
  cases lit with
  | nil => exact absurd rfl hl
  | cons l ls =>
    unfold putCharacter
    have : "\x7b\"ID\":".data = Char.ofNat 123 :: "\"ID\":".data := by decide
    rw [this, List.cons_append]
    unfold expect
    have hne : l ≠ Char.ofNat 123 := by
      intro hc; apply h; simp [hc]
    rw [if_neg hne]

theorem expect_bracket_comma (k : List Char) :
    expect "]".data (",".data ++ k) = none := by
  have h : "]".data = [Char.ofNat 93] := by decide
  have h2 : ",".data = [Char.ofNat 44] := by decide
  rw [h, h2, List.singleton_append, expect]
  rw [if_neg (by decide)]

theorem readCharacters_putCharacters (fuel : Nat) (c : Character) (cs : List Character)
    (k : List Char) (hf : cs.length < fuel) :
    readCharacters fuel (putCharacters c cs k) = some (c :: cs, k) := by
  induction cs generalizing fuel c with
  | nil =>
    cases fuel with
    | zero => simp at hf
    | succ fuel =>
      rw [putCharacters, readCharacters, readCharacter_putCharacter]
      simp only []
      rw [expect_append]
  | cons c1 cs ih =>
    cases fuel with
    | zero => simp at hf
    | succ fuel =>
      rw [putCharacters, readCharacters, readCharacter_putCharacter]
      simp only []
      rw [expect_bracket_comma, expect_append]
      simp only []
      rw [ih fuel c1 (by simpa using hf)]

theorem putEscaped_length (cs k : List Char) : k.length ≤ (putEscaped cs k).length := by
  induction cs with
  | nil => simp [putEscaped]
  | cons c cs ih =>
    unfold putEscaped
    split <;> simp <;> omega

theorem putString_length (s : String) (k : List Char) : k.length < (putString s k).length := by
  unfold putString
  have := putEscaped_length s.data (quoteChar :: k)
  simp at this ⊢
  omega

theorem append_length_le (lit x : List Char) : x.length ≤ (lit ++ x).length := by
  rw [List.length_append]
  exact Nat.le_add_left _ _

theorem putCharacter_length (c : Character) (k : List Char) :
    k.length < (putCharacter c k).length := by
  rw [putCharacter]
  refine Nat.lt_of_lt_of_le ?_ (append_length_le _ _)
  refine Nat.lt_of_le_of_lt ?_ (putString_length _ _)
  refine Nat.le_trans ?_ (append_length_le _ _)
  rw [putBool]
  refine Nat.le_trans ?_ (append_length_le _ _)
  refine Nat.le_trans ?_ (append_length_le _ _)
  refine Nat.le_trans ?_ (Nat.le_of_lt (putString_length _ _))
  refine Nat.le_trans ?_ (append_length_le _ _)
  refine Nat.le_trans ?_ (Nat.le_of_lt (putString_length _ _))
  refine Nat.le_trans ?_ (append_length_le _ _)
  refine Nat.le_trans ?_ (Nat.le_of_lt (putString_length _ _))
  exact append_length_le _ _

theorem putCharacters_length (c : Character) (cs : List Character) (k : List Char) :
    cs.length < (putCharacters c cs k).length := by
  induction cs generalizing c with
  | nil =>
    rw [putCharacters]
    exact Nat.lt_of_le_of_lt (Nat.zero_le _) (putCharacter_length _ _)
  | cons c1 cs ih =>
    rw [putCharacters]
    refine Nat.lt_of_le_of_lt ?_ (putCharacter_length _ _)
    refine Nat.le_trans ?_ (append_length_le _ _)
    exact ih c1

theorem expect_bracket_putCharacter (c : Character) (k : List Char) :
    expect "]".data (putCharacter c k) = none := by
  have h : "]".data = [Char.ofNat 93] := by decide
  have h2 : "\x7b\"ID\":".data = Char.ofNat 123 :: "\"ID\":".data := by decide
  rw [putCharacter, h, h2, List.cons_append, expect]
  rw [if_neg (by decide)]

theorem expect_bracket_putCharacters (c : Character) (cs : List Character) (k : List Char) :
    expect "]".data (putCharacters c cs k) = none := by
  cases cs with
  | nil => rw [putCharacters]; exact expect_bracket_putCharacter _ _
  | cons c1 cs => rw [putCharacters]; exact expect_bracket_putCharacter _ _

/-- C4: for every document `d`, with sentinels, visible characters and
tombstones alike, `Load` applied to the text `Save` wrote for `d` succeeds
and returns `d` itself, the same character sequence field for field; hence
the loaded document has the content of `d`. -/
theorem Load_Save (d : Document) :
    Load (Save d) = some d ∧ (Load (Save d)).map Content = some (Content d) := by
  have h : Load (Save d) = some d := by
    obtain ⟨cs⟩ := d
    cases cs with
    | nil => decide
    | cons c cs =>
      rw [Save, Load]
      simp only []
      rw [expect_append]
      simp only []
      rw [expect_bracket_putCharacters]
      simp only []
      rw [readCharacters_putCharacters _ c cs [] (putCharacters_length c cs [])]
  exact ⟨h, by rw [h]; rfl⟩

/-- C4 at the document of `TestLoad`: nine characters, content `cat`, newline,
`dog`; loading its snapshot gives the document back. -/
theorem Load_Save_witness :
    Content catDog = "cat\ndog" ∧ catDog.Length = 9 ∧
    Load (Save catDog) = some catDog ∧
    (Load (Save catDog)).map Content = some "cat\ndog" :=
  ⟨by decide, by decide, (Load_Save catDog).1,
    (Load_Save catDog).2.trans (by decide)⟩

end crdt

namespace server

/-! ## Part IV: theorems about the relay server -/

theorem close_list (r : Run) (id : UUID) :
    (r.close id).clients.list = r.clients.list.filter (fun x => x.id != id) := by
  unfold Run.close Clients.lookup
  cases h : r.clients.list.find? (fun cl => cl.id == id) with
  | some cl => rfl
  | none =>
    simp only
    rw [List.find?_eq_none] at h
    symm
    rw [List.filter_eq_self]
    intro a ha
    have := h a ha
    simpa using this

theorem close_sends (r : Run) (id : UUID) : (r.close id).sends = r.sends := by
  unfold Run.close
  cases r.clients.lookup id <;> rfl

theorem sendUsernames_sends (who : Goroutine) (r : Run) :
    (r.sendUsernames who).sends = r.sends := by
  unfold Run.sendUsernames
  split <;> rfl

theorem sendUsernames_clients (who : Goroutine) (r : Run) :
    (r.sendUsernames who).clients = r.clients := by
  unfold Run.sendUsernames
  split <;> rfl

theorem sendUsernames_closed (who : Goroutine) (r : Run) :
    (r.sendUsernames who).closed = r.closed := by
  unfold Run.sendUsernames
  split <;> rfl

theorem sendTo_sends (who : Goroutine) (wire : client → Message → Bool) (r : Run) (cl : client)
    (msg : Message) :
    (r.sendTo who wire cl msg).sends =
      r.sends ++ [{ dst := cl, msg := msg, ok := wire cl msg }] := by
  unfold Run.sendTo
  cases h : wire cl msg with
  | true => simp
  | false => simp [Run.delete, sendUsernames_sends, close_sends]

theorem sendTo_list (who : Goroutine) (wire : client → Message → Bool) (r : Run) (cl : client)
    (msg : Message) :
    (r.sendTo who wire cl msg).clients.list =
      r.clients.list.filter (fun x => wire cl msg || x.id != cl.id) := by
  unfold Run.sendTo
  cases h : wire cl msg with
  | true => simp
  | false => simp [Run.delete, sendUsernames_clients, close_list]

theorem sendTo_ok (who : Goroutine) (wire : client → Message → Bool) (r : Run) (cl : client)
    (msg : Message) (h : wire cl msg = true) :
    r.sendTo who wire cl msg =
      { r with sends := r.sends ++ [{ dst := cl, msg := msg, ok := true }] } := by
  unfold Run.sendTo
  rw [if_pos h]

theorem sendTo_failed (who : Goroutine) (wire : client → Message → Bool) (r : Run)
    (cl : client) (msg : Message) (h : wire cl msg = false) :
    r.sendTo who wire cl msg =
      Run.delete who { r with sends := r.sends ++ [{ dst := cl, msg := msg, ok := false }] }
        cl.id := by
  unfold Run.sendTo
  rw [h]
  rfl

theorem delete_hung_handleSync (r : Run) (id : UUID) :
    (Run.delete Goroutine.handleSync r id).hung = true := by
  unfold Run.delete Run.sendUsernames
  rfl

theorem close_hung (r : Run) (id : UUID) : (r.close id).hung = r.hung := by
  unfold Run.close
  cases r.clients.lookup id <;> rfl

theorem close_syncChan (r : Run) (id : UUID) : (r.close id).syncChan = r.syncChan := by
  unfold Run.close
  cases r.clients.lookup id <;> rfl

theorem close_closed (r : Run) (id : UUID) (cl : client) (h : r.clients.lookup id = some cl) :
    (r.close id).closed = r.closed ++ [cl.Conn] := by
  unfold Run.close
  rw [h]

theorem delete_syncChan_handleSync (r : Run) (id : UUID) :
    (Run.delete Goroutine.handleSync r id).syncChan = r.syncChan := by
  unfold Run.delete Run.sendUsernames
  simp only [if_true]
  exact close_syncChan r id

theorem delete_closed (who : Goroutine) (r : Run) (id : UUID) (cl : client)
    (h : r.clients.lookup id = some cl) :
    (Run.delete who r id).closed = r.closed ++ [cl.Conn] := by
  unfold Run.delete
  rw [sendUsernames_closed, close_closed r id cl h]

theorem sendTo_hung_elsewhere (who : Goroutine) (wire : client → Message → Bool) (r : Run)
    (cl : client) (msg : Message) (hw : who ≠ Goroutine.handleSync) :
    (r.sendTo who wire cl msg).hung = r.hung := by
  unfold Run.sendTo
  cases h : wire cl msg with
  | true => rfl
  | false =>
    simp only [Bool.false_eq_true, if_false, Run.delete, Run.sendUsernames, if_neg hw]
    rw [close_hung]

theorem broadcastAllExceptLoop_sends (wire : client → Message → Bool) (msg : Message)
    (except : UUID) (l : List client) (r : Run) :
    (broadcastAllExceptLoop wire msg except l r).sends =
      r.sends ++ (l.filter (fun cl => cl.id != except)).map
        (fun cl => { dst := cl, msg := msg, ok := wire cl msg }) := by
  induction l generalizing r with
  | nil => simp [broadcastAllExceptLoop]
  | cons cl rest ih =>
    unfold broadcastAllExceptLoop
    by_cases h : cl.id = except
    · simp [h, ih]
    · simp [h, ih, sendTo_sends]

theorem findRoom_mem (m : List (String × Room)) (id : UUID) (e : String × Room)
    (h : findRoom m id = some e) : e ∈ m ∧ (e.2.Clients.lookup id).isSome := by
  induction m with
  | nil => simp [findRoom] at h
  | cons a rest ih =>
    unfold findRoom at h
    split at h
    · rename_i ha
      cases h
      exact ⟨List.mem_cons_self _ _, ha⟩
    · exact ⟨List.mem_cons_of_mem _ (ih h).1, (ih h).2⟩

theorem nodup_of_WF (c : Clients) (h : c.WF) : c.list.Nodup :=
  List.Nodup.of_map _ h

/-- C3: an operation message read from the connection of the client `sender`
is put on `messageChan` with `ID` set to `sender`, and `handleMsg` then
writes it to the clients of the sender's room other than the sender, in the
order of enumeration: every client of that room with another id is written to
exactly once, and the sender and every client that is not in that room
(hence every client of another room) are written to zero times. -/
theorem handleMsg_operation_recipients (wire : client → Message → Bool) (s : Server)
    (sender : UUID) (m : Message) (key : String) (room : Room)
    (hop : m.MsgType = "operation")
    (hroom : findRoom s.roomsMap sender = some (key, room))
    (hwf : room.Clients.WF) :
    forward sender m = (Chan.messageChan, { m with ID := sender }) ∧
    ∃ st, handleMsg wire s (forward sender m).2 = some st ∧
      st.sends = (room.Clients.list.filter (fun cl => cl.id != sender)).map
        (fun cl => { dst := cl, msg := { m with ID := sender }, ok := wire cl { m with ID := sender } }) ∧
      ∀ cl : client, (st.sends.map (fun x => x.dst)).count cl =
        if cl ∈ room.Clients.list ∧ cl.id ≠ sender then 1 else 0 := by
  have hf : forward sender m = (Chan.messageChan, { m with ID := sender }) := by
    unfold forward
    rw [hop]
    simp [DocSyncMessage]
  refine ⟨hf, ?_⟩
  rw [hf]
  have hj : ¬ ("operation" = JoinMessage) := by decide
  have hsends : (room.Clients.broadcastAllExcept wire { m with ID := sender } sender).sends
      = (room.Clients.list.filter (fun cl => cl.id != sender)).map
        (fun cl => { dst := cl, msg := { m with ID := sender }, ok := wire cl { m with ID := sender } }) := by
    unfold Clients.broadcastAllExcept
    rw [broadcastAllExceptLoop_sends]
    simp [Run.start, Clients.getAll]
  refine ⟨Step.ofRun s key room (room.Clients.broadcastAllExcept wire { m with ID := sender } sender), ?_, ?_, ?_⟩
  · simp only [handleMsg, hop, hj, if_false, if_true, relay, hroom]
  · simp only [Step.ofRun, hsends]
  · intro cl
    simp only [Step.ofRun, hsends, List.map_map]
    have hid : ((fun x : Send => x.dst) ∘ fun cl : client =>
        ({ dst := cl, msg := { m with ID := sender }, ok := wire cl { m with ID := sender } } : Send))
        = id := by
      funext x; rfl
    rw [hid, List.map_id]
    have hnd : (room.Clients.list.filter (fun cl => cl.id != sender)).Nodup :=
      (nodup_of_WF _ hwf).filter _
    by_cases hc : cl ∈ room.Clients.list ∧ cl.id ≠ sender
    · rw [if_pos hc]
      apply List.count_eq_one_of_mem hnd
      simp [List.mem_filter, hc.1, hc.2]
    · rw [if_neg hc]
      apply List.count_eq_zero_of_not_mem
      intro hmem
      apply hc
      simpa [List.mem_filter] using hmem

theorem broadcastAllLoop_ok (wire : client → Message → Bool) (msg : Message)
    (l : List client) (r : Run) (hr : r.hung = false) (h : ∀ cl ∈ l, wire cl msg = true) :
    broadcastAllLoop wire msg l r =
      { r with sends := r.sends ++ l.map (fun cl => { dst := cl, msg := msg, ok := true }) } := by
  induction l generalizing r with
  | nil => simp [broadcastAllLoop]
  | cons cl rest ih =>
    have hw := h cl (List.mem_cons_self _ _)
    unfold broadcastAllLoop
    rw [sendTo_ok _ _ _ _ _ hw]
    simp only [hr, Bool.false_eq_true, if_false]
    rw [ih _ rfl (fun x hx => h x (List.mem_cons_of_mem _ hx))]
    simp [hr]

theorem broadcastAllLoop_blocks (wire : client → Message → Bool) (msg : Message)
    (pre : List client) (x : client) (post : List client) (r : Run) (hr : r.hung = false)
    (hpre : ∀ cl ∈ pre, wire cl msg = true) (hx : wire x msg = false) :
    broadcastAllLoop wire msg (pre ++ x :: post) r =
      Run.delete Goroutine.handleSync
        { r with sends := r.sends ++
            (pre.map (fun cl => { dst := cl, msg := msg, ok := true }) ++
              [{ dst := x, msg := msg, ok := false }]) } x.id := by
  induction pre generalizing r with
  | nil =>
    simp only [List.nil_append, List.map_nil]
    unfold broadcastAllLoop
    rw [sendTo_failed _ _ _ _ _ hx, delete_hung_handleSync]
    simp only [if_true]
  | cons cl rest ih =>
    have hw := hpre cl (List.mem_cons_self _ _)
    simp only [List.cons_append]
    unfold broadcastAllLoop
    rw [sendTo_ok _ _ _ _ _ hw]
    simp only [hr, Bool.false_eq_true, if_false]
    rw [ih _ rfl (fun y hy => hpre y (List.mem_cons_of_mem _ hy))]
    simp [hr]

/-- When every write succeeds `broadcastAll` writes to every client of the
registry, in the order of enumeration, returns, and leaves the registry as it
was. -/
theorem broadcastAll_all_ok (wire : client → Message → Bool) (c : Clients) (msg : Message)
    (h : ∀ cl ∈ c.list, wire cl msg = true) :
    c.broadcastAll wire msg =
      { Run.start c with
        sends := c.list.map (fun cl => { dst := cl, msg := msg, ok := true }) } := by
  unfold Clients.broadcastAll Clients.getAll
  rw [broadcastAllLoop_ok wire msg c.list (Run.start c) rfl h]
  simp [Run.start]

/-- When a write of `broadcastAll` fails, the first client whose write fails
is the last one written to: it is closed and taken out of the registry, the
send of the usernames that follows blocks for ever, so the method does not
return and the clients enumerated after that one are not written to. -/
theorem broadcastAll_first_failure (wire : client → Message → Bool) (c : Clients)
    (msg : Message) (pre : List client) (x : client) (post : List client)
    (hl : c.list = pre ++ x :: post) (hpre : ∀ cl ∈ pre, wire cl msg = true)
    (hx : wire x msg = false) :
    (c.broadcastAll wire msg).hung = true ∧
    (c.broadcastAll wire msg).sends =
      pre.map (fun cl => { dst := cl, msg := msg, ok := true }) ++
        [{ dst := x, msg := msg, ok := false }] ∧
    (c.broadcastAll wire msg).clients.list = c.list.filter (fun y => y.id != x.id) ∧
    (c.broadcastAll wire msg).syncChan = [] := by
  unfold Clients.broadcastAll Clients.getAll
  rw [hl, broadcastAllLoop_blocks wire msg pre x post (Run.start c) rfl hpre hx]
  refine ⟨delete_hung_handleSync _ _, ?_, ?_, ?_⟩
  · simp [Run.delete, sendUsernames_sends, close_sends, Run.start]
  · simp [Run.delete, sendUsernames_clients, close_list, Run.start, hl]
  · rw [delete_syncChan_handleSync]
    rfl

/-- C8: in the sample room, enumerated as ann, bob, cem, with the write to
bob failing, `broadcastAll` writes to ann and to bob and then never returns:
bob is closed and taken out of the registry, the send of the usernames in
`delete` blocks (the method runs in `handleSync`, the one receiver of
`syncChan`), and cem, enumerated after bob, is not written to. The round of
`handleSync` for a `users` message with the id of ann is blocked in the same
way. When every write succeeds all three clients are written to and the
method returns with the registry as it was. -/
theorem broadcastAll_blocks_after_failed_write :
    sampleRoom.Clients.getAll = [ann, bob, cem] ∧
    (∀ msg : Message, bobFails ann msg = true ∧ bobFails bob msg = false ∧
      bobFails cem msg = true) ∧
    (∀ msg : Message,
      (sampleRoom.Clients.broadcastAll bobFails msg).sends =
        [{ dst := ann, msg := msg, ok := true }, { dst := bob, msg := msg, ok := false }] ∧
      (sampleRoom.Clients.broadcastAll bobFails msg).hung = true ∧
      (sampleRoom.Clients.broadcastAll bobFails msg).clients.list = [ann, cem] ∧
      (sampleRoom.Clients.broadcastAll bobFails msg).closed = [bob.Conn] ∧
      (sampleRoom.Clients.broadcastAll bobFails msg).syncChan = [] ∧
      cem ∉ (sampleRoom.Clients.broadcastAll bobFails msg).sends.map (fun x => x.dst)) ∧
    (∃ st, handleSync bobFails sampleServer
        { MsgType := UsersMessage, Text := "ann,bob,cem,", ID := 11 } = some st ∧
      st.hung = true ∧ st.sends.map (fun x => (x.dst, x.ok)) = [(ann, true), (bob, false)]) ∧
    (∀ msg : Message,
      sampleRoom.Clients.broadcastAll allWritten msg =
        { clients := sampleRoom.Clients,
          sends := [{ dst := ann, msg := msg, ok := true }, { dst := bob, msg := msg, ok := true },
            { dst := cem, msg := msg, ok := true }],
          syncChan := [], closed := [], hung := false }) := by
  refine ⟨rfl, fun msg => ⟨rfl, rfl, rfl⟩, ?_, ⟨_, rfl, rfl, rfl⟩, ?_⟩
  · intro msg
    obtain ⟨h1, h2, h3, h4⟩ := broadcastAll_first_failure bobFails sampleRoom.Clients msg
      [ann] bob [cem] rfl (by intro cl hcl; simp at hcl; subst hcl; rfl) rfl
    refine ⟨h2, h1, h3.trans (by decide), rfl, h4, ?_⟩
    rw [h2]
    show cem ∉ [ann, bob]
    decide
  · intro msg
    exact broadcastAll_all_ok allWritten sampleRoom.Clients msg (fun _ _ => rfl)

theorem broadcastOneExceptLoop_sends (wire : client → Message → Bool) (msg : Message)
    (except : UUID) (l : List client) (r : Run) :
    (broadcastOneExceptLoop wire msg except l r).sends =
      r.sends ++ oneExceptSends wire msg except l := by
  induction l generalizing r with
  | nil => simp [broadcastOneExceptLoop, oneExceptSends]
  | cons cl rest ih =>
    unfold broadcastOneExceptLoop oneExceptSends
    by_cases h : cl.id = except
    · simp [h, ih]
    · cases hw : wire cl msg with
      | true => simp [h, sendTo_sends, hw]
      | false => simp [h, ih, sendTo_sends, hw]

theorem oneExceptSends_not_except (wire : client → Message → Bool) (msg : Message)
    (except : UUID) (l : List client) :
    ∀ x ∈ oneExceptSends wire msg except l, x.dst.id ≠ except ∧ x.dst ∈ l ∧ x.msg = msg := by
  induction l with
  | nil => simp [oneExceptSends]
  | cons cl rest ih =>
    intro x hx
    unfold oneExceptSends at hx
    by_cases h : cl.id = except
    · rw [if_pos h] at hx
      obtain ⟨a, b, c⟩ := ih x hx
      exact ⟨a, List.mem_cons_of_mem _ b, c⟩
    · rw [if_neg h] at hx
      cases hw : wire cl msg with
      | true =>
        simp [hw] at hx
        subst hx
        exact ⟨h, List.mem_cons_self _ _, rfl⟩
      | false =>
        simp [hw] at hx
        rcases hx with hx | hx
        · subst hx
          exact ⟨h, List.mem_cons_self _ _, rfl⟩
        · obtain ⟨a, b, c⟩ := ih x hx
          exact ⟨a, List.mem_cons_of_mem _ b, c⟩

theorem oneExceptSends_ok_le (wire : client → Message → Bool) (msg : Message)
    (except : UUID) (l : List client) :
    ((oneExceptSends wire msg except l).filter (fun x => x.ok)).length ≤ 1 := by
  induction l with
  | nil => simp [oneExceptSends]
  | cons cl rest ih =>
    unfold oneExceptSends
    by_cases h : cl.id = except
    · rw [if_pos h]; exact ih
    · rw [if_neg h]
      cases hw : wire cl msg with
      | true => simp
      | false => simpa using ih

theorem oneExceptSends_ok_eq (wire : client → Message → Bool) (msg : Message)
    (except : UUID) (l : List client)
    (h : ∃ cl ∈ l, cl.id ≠ except ∧ wire cl msg = true) :
    ((oneExceptSends wire msg except l).filter (fun x => x.ok)).length = 1 := by
  induction l with
  | nil => simp at h
  | cons cl rest ih =>
    unfold oneExceptSends
    by_cases he : cl.id = except
    · rw [if_pos he]
      apply ih
      obtain ⟨x, hx, h1, h2⟩ := h
      rcases List.mem_cons.mp hx with hx | hx
      · subst hx; exact absurd he h1
      · exact ⟨x, hx, h1, h2⟩
    · rw [if_neg he]
      cases hw : wire cl msg with
      | true => simp
      | false =>
        simp only [Bool.false_eq_true, if_false, List.filter_cons_of_neg, not_false_eq_true]
        apply ih
        obtain ⟨x, hx, h1, h2⟩ := h
        rcases List.mem_cons.mp hx with hx | hx
        · subst hx; rw [hw] at h2; simp at h2
        · exact ⟨x, hx, h1, h2⟩

theorem oneExceptSends_stop (wire : client → Message → Bool) (msg : Message)
    (except : UUID) (l : List client) :
    ∀ pre post x, oneExceptSends wire msg except l = pre ++ x :: post → x.ok = true →
      post = [] := by
  induction l with
  | nil => intro pre post x h; simp [oneExceptSends] at h
  | cons cl rest ih =>
    intro pre post x h hx
    unfold oneExceptSends at h
    by_cases he : cl.id = except
    · rw [if_pos he] at h; exact ih pre post x h hx
    · rw [if_neg he] at h
      cases hw : wire cl msg with
      | true =>
        simp only [hw, if_true] at h
        cases pre with
        | nil => simp at h; exact h.2
        | cons a pre => simp at h
      | false =>
        simp only [hw, Bool.false_eq_true, if_false] at h
        cases pre with
        | nil =>
          simp at h
          rw [← h.1] at hx
          simp at hx
        | cons a pre =>
          simp at h
          exact ih pre post x h.2 hx

theorem broadcastOneExceptLoop_alone (wire : client → Message → Bool) (msg : Message)
    (except : UUID) (l : List client) (r : Run) (h : ∀ cl ∈ l, cl.id = except) :
    broadcastOneExceptLoop wire msg except l r = r := by
  induction l generalizing r with
  | nil => rfl
  | cons cl rest ih =>
    unfold broadcastOneExceptLoop
    rw [if_pos (h cl (List.mem_cons_self _ _))]
    exact ih r (fun x hx => h x (List.mem_cons_of_mem _ hx))

/-- C9: every write of `broadcastOneExcept` goes to a registered client whose
id is not `except` and carries `msg`; no write follows a successful one; at
most one write succeeds, and exactly one does when some client other than
`except` accepts the write; when no client other than `except` is registered
nothing is written and the registry is unchanged. -/
theorem broadcastOneExcept_single (wire : client → Message → Bool) (c : Clients)
    (msg : Message) (except : UUID) :
    (∀ x ∈ (c.broadcastOneExcept wire msg except).sends,
      x.dst.id ≠ except ∧ x.dst ∈ c.list ∧ x.msg = msg) ∧
    (∀ pre post x, (c.broadcastOneExcept wire msg except).sends = pre ++ x :: post →
      x.ok = true → post = []) ∧
    ((c.broadcastOneExcept wire msg except).sends.filter (fun x => x.ok)).length ≤ 1 ∧
    ((∃ cl ∈ c.list, cl.id ≠ except ∧ wire cl msg = true) →
      ((c.broadcastOneExcept wire msg except).sends.filter (fun x => x.ok)).length = 1) ∧
    ((∀ cl ∈ c.list, cl.id = except) →
      c.broadcastOneExcept wire msg except = Run.start c) := by
  have hs : (c.broadcastOneExcept wire msg except).sends
      = oneExceptSends wire msg except c.list := by
    unfold Clients.broadcastOneExcept
    rw [broadcastOneExceptLoop_sends]
    simp [Run.start, Clients.getAll]
  rw [hs]
  refine ⟨oneExceptSends_not_except wire msg except c.list,
    oneExceptSends_stop wire msg except c.list,
    oneExceptSends_ok_le wire msg except c.list,
    oneExceptSends_ok_eq wire msg except c.list, ?_⟩
  intro h
  exact broadcastOneExceptLoop_alone wire msg except c.list _ h

theorem findRoom_of_mem (m : List (String × Room)) (id : UUID) (e : String × Room)
    (he : e ∈ m) (h : (e.2.Clients.lookup id).isSome) : ∃ e1, findRoom m id = some e1 := by
  induction m with
  | nil => simp at he
  | cons a rest ih =>
    unfold findRoom
    by_cases ha : (a.2.Clients.lookup id).isSome
    · exact ⟨a, by rw [if_pos ha]⟩
    · rw [if_neg ha]
      rcases List.mem_cons.mp he with hea | hea
      · subst hea; exact absurd h ha
      · exact ih hea

theorem lookup_some (c : Clients) (id : UUID) (cl : client) (h : c.lookup id = some cl) :
    cl ∈ c.list ∧ cl.id = id := by
  unfold Clients.lookup at h
  have h1 := List.mem_of_find?_eq_some h
  have h2 := List.find?_some h
  exact ⟨h1, by simpa using h2⟩

theorem lookup_of_mem (c : Clients) (cl : client) (h : cl ∈ c.list) :
    (c.lookup cl.id).isSome := by
  unfold Clients.lookup
  rw [List.find?_isSome]
  exact ⟨cl, h, by simp⟩

/-- C10: a `docSync` message whose `ID` is the id of a registered client `d`
is put on `syncChan` unchanged by the read loop (of any client `reader`), and
the round of `handleSync` for it performs exactly one write: to `d`, with the
message unchanged. When that write succeeds the round ends with nothing else
done; when it fails `d` is closed and the round never ends (the send of the
usernames in `delete` blocks), so no other client is written to in either
case. Client ids are unique over all rooms (`huniq`). -/
theorem handleSync_docSync_addressee (wire : client → Message → Bool) (s : Server)
    (reader : UUID) (m : Message) (e : String × Room) (d : client)
    (hty : m.MsgType = DocSyncMessage)
    (he : e ∈ s.roomsMap) (hd : d ∈ e.2.Clients.list) (hid : d.id = m.ID)
    (huniq : ∀ e1 ∈ s.roomsMap, ∀ cl ∈ e1.2.Clients.list, cl.id = d.id → cl = d) :
    forward reader m = (Chan.syncChan, m) ∧
    ∃ st, handleSync wire s (forward reader m).2 = some st ∧
      st.sends = [{ dst := d, msg := m, ok := wire d m }] ∧
      st.hung = !wire d m ∧
      st.syncChan = [] ∧
      st.closed = (if wire d m then [] else [d.Conn]) := by
  have hf : forward reader m = (Chan.syncChan, m) := by
    unfold forward
    rw [if_pos hty]
  refine ⟨hf, ?_⟩
  rw [hf]
  have hsome : (e.2.Clients.lookup m.ID).isSome := by
    rw [← hid]; exact lookup_of_mem _ _ hd
  obtain ⟨e1, hfind⟩ := findRoom_of_mem s.roomsMap m.ID e he hsome
  obtain ⟨hmem, hl⟩ := findRoom_mem _ _ _ hfind
  obtain ⟨cl, hcl⟩ := Option.isSome_iff_exists.mp hl
  obtain ⟨hclmem, hclid⟩ := lookup_some _ _ _ hcl
  have hcd : cl = d := huniq e1 hmem cl hclmem (by rw [hclid, hid])
  subst hcd
  obtain ⟨key, room⟩ := e1
  refine ⟨Step.ofRun s key room (room.Clients.broadcastOne Goroutine.handleSync wire m m.ID),
    ?_, ?_, ?_⟩
  · simp only [handleSync, hty, if_true, hfind]
  · simp only at hcl
    simp only [Step.ofRun, Clients.broadcastOne, Clients.get, List.head?_cons, hcl,
      sendTo_sends, Run.start, List.nil_append]
  · simp only at hcl
    simp only [Step.ofRun, Clients.broadcastOne, Clients.get, List.head?_cons, hcl]
    cases hw : wire cl m with
    | true =>
      rw [sendTo_ok _ _ _ _ _ hw]
      exact ⟨rfl, rfl, rfl⟩
    | false =>
      rw [sendTo_failed _ _ _ _ _ hw]
      refine ⟨delete_hung_handleSync _ _, ?_, ?_⟩
      · rw [delete_syncChan_handleSync]
        rfl
      · rw [delete_closed _ _ _ cl (by rw [hid]; exact hcl)]
        rfl

theorem mapGet_mapSet_same (m : List (String × Room)) (k : String) (r : Room) :
    mapGet (mapSet m k r) k = some r := by
  induction m with
  | nil => simp [mapSet, mapGet]
  | cons a rest ih =>
    unfold mapSet
    by_cases h : a.1 = k
    · simp [h, mapGet]
    · simp [h, mapGet, ih]

theorem mapGet_mapSet_other (m : List (String × Room)) (k k1 : String) (r : Room)
    (hk : k1 ≠ k) : mapGet (mapSet m k r) k1 = mapGet m k1 := by
  induction m with
  | nil => simp [mapSet, mapGet, Ne.symm hk]
  | cons a rest ih =>
    unfold mapSet
    by_cases h : a.1 = k
    · have : a.1 ≠ k1 := by rw [h]; exact Ne.symm hk
      simp [h, mapGet, Ne.symm hk, this]
    · rw [if_neg h]
      by_cases h1 : a.1 = k1
      · simp [mapGet, h1]
      · simp [mapGet, h1, ih]

theorem mapSet_absent (m : List (String × Room)) (k : String) (r : Room)
    (h : mapGet m k = none) : mapSet m k r = m ++ [(k, r)] := by
  induction m with
  | nil => rfl
  | cons a rest ih =>
    unfold mapGet at h
    by_cases ha : a.1 = k
    · simp [ha] at h
    · rw [if_neg ha] at h
      simp [mapSet, ha, ih h]

/-- C7: when no room is stored under `roomID`, `getOrCreateRoom` returns a
new room with the flag `true`, the new map has that room under `roomID`,
every other key is unchanged, the map is the old one with one entry more, and
a second request for the same name returns the same room with the flag
`false` and changes nothing; when a room is stored under `roomID` it is
returned with the flag `false` and the state is unchanged. -/
theorem getOrCreateRoom_spec (s : Server) (roomID fresh fresh2 : String) :
    (mapGet s.roomsMap roomID = none →
      ∃ room s1, getOrCreateRoom s roomID fresh = (room, true, s1) ∧
        mapGet s1.roomsMap roomID = some room ∧
        (∀ other, other ≠ roomID → mapGet s1.roomsMap other = mapGet s.roomsMap other) ∧
        s1.roomsMap = s.roomsMap ++ [(roomID, room)] ∧
        s1.roomsMap.length = s.roomsMap.length + 1 ∧
        s1.siteID = s.siteID ∧
        getOrCreateRoom s1 roomID fresh2 = (room, false, s1)) ∧
    (∀ room, mapGet s.roomsMap roomID = some room →
      getOrCreateRoom s roomID fresh = (room, false, s)) := by
  constructor
  · intro h
    let made : Room := { ID := fresh, Clients := { list := [], monitors := 1 } }
    have hset := mapSet_absent s.roomsMap roomID made h
    refine ⟨made, { roomsMap := mapSet s.roomsMap roomID made, siteID := s.siteID },
      ?_, ?_, ?_, ?_, ?_, rfl, ?_⟩
    · simp [getOrCreateRoom, h, NewRoom, NewClients]
    · exact mapGet_mapSet_same _ _ _
    · intro other ho
      exact mapGet_mapSet_other _ _ _ _ ho
    · exact hset
    · simp [hset]
    · simp [getOrCreateRoom, mapGet_mapSet_same]
  · intro room h
    simp [getOrCreateRoom, h]

/-- C3 at the sample server: ann sends an operation, bob and cem are written to. -/
theorem handleMsg_operation_recipients_witness :
    let m : Message := { MsgType := "operation", Operation := "insert 1 a" }
    m.MsgType = "operation" ∧
    findRoom sampleServer.roomsMap 11 = some ("alpha", sampleRoom) ∧
    sampleRoom.Clients.WF ∧
    (forward 11 m = (Chan.messageChan, { m with ID := 11 }) ∧
    ∃ st, handleMsg bobFails sampleServer (forward 11 m).2 = some st ∧
      st.sends = (sampleRoom.Clients.list.filter (fun cl => cl.id != 11)).map
        (fun cl => { dst := cl, msg := { m with ID := 11 }, ok := bobFails cl { m with ID := 11 } }) ∧
      ∀ cl : client, (st.sends.map (fun x => x.dst)).count cl =
        if cl ∈ sampleRoom.Clients.list ∧ cl.id ≠ 11 then 1 else 0) :=
  ⟨by decide, by decide, by decide,
    handleMsg_operation_recipients bobFails sampleServer 11 _ "alpha" sampleRoom
      (by decide) (by decide) (by decide)⟩

/-- C9 at the sample rooms: one successful write when cem asks in the sample room,
nothing at all when dora asks alone in hers. -/
theorem broadcastOneExcept_single_witness :
    let msg : Message := { MsgType := DocReqMessage, ID := 13 }
    (∃ cl ∈ sampleRoom.Clients.list, cl.id ≠ 13 ∧ bobFails cl msg = true) ∧
    ((sampleRoom.Clients.broadcastOneExcept bobFails msg 13).sends.filter
      (fun x => x.ok)).length = 1 ∧
    (∀ cl ∈ otherRoom.Clients.list, cl.id = 14) ∧
    otherRoom.Clients.broadcastOneExcept bobFails msg 14 = Run.start otherRoom.Clients :=
  ⟨⟨ann, by decide, by decide, by decide⟩,
    (broadcastOneExcept_single bobFails sampleRoom.Clients _ 13).2.2.2.1
      ⟨ann, by decide, by decide, by decide⟩,
    by decide,
    (broadcastOneExcept_single bobFails otherRoom.Clients _ 14).2.2.2.2 (by decide)⟩

/-- C10 at the sample server, where the write to bob fails: a snapshot
addressed to cem is written to cem only and the round ends; a snapshot
addressed to bob is written to bob only, bob is closed and the round never
ends. -/
theorem handleSync_docSync_addressee_witness :
    let m : Message := { MsgType := DocSyncMessage, Text := "snapshot", ID := 13 }
    let m2 : Message := { MsgType := DocSyncMessage, Text := "snapshot", ID := 12 }
    m.MsgType = DocSyncMessage ∧
    (("alpha", sampleRoom) ∈ sampleServer.roomsMap) ∧ cem ∈ sampleRoom.Clients.list ∧
    cem.id = m.ID ∧
    (∀ e1 ∈ sampleServer.roomsMap, ∀ cl ∈ e1.2.Clients.list, cl.id = cem.id → cl = cem) ∧
    bobFails cem m = true ∧
    (forward 11 m = (Chan.syncChan, m) ∧
    ∃ st, handleSync bobFails sampleServer (forward 11 m).2 = some st ∧
      st.sends = [{ dst := cem, msg := m, ok := bobFails cem m }] ∧
      st.hung = !bobFails cem m ∧
      st.syncChan = [] ∧
      st.closed = (if bobFails cem m then [] else [cem.Conn])) ∧
    m2.MsgType = DocSyncMessage ∧ bob ∈ sampleRoom.Clients.list ∧ bob.id = m2.ID ∧
    (∀ e1 ∈ sampleServer.roomsMap, ∀ cl ∈ e1.2.Clients.list, cl.id = bob.id → cl = bob) ∧
    bobFails bob m2 = false ∧
    (forward 11 m2 = (Chan.syncChan, m2) ∧
    ∃ st, handleSync bobFails sampleServer (forward 11 m2).2 = some st ∧
      st.sends = [{ dst := bob, msg := m2, ok := bobFails bob m2 }] ∧
      st.hung = !bobFails bob m2 ∧
      st.syncChan = [] ∧
      st.closed = (if bobFails bob m2 then [] else [bob.Conn])) :=
  ⟨by decide, by decide, by decide, by decide, by decide, by decide,
    handleSync_docSync_addressee bobFails sampleServer 11 _ ("alpha", sampleRoom) cem
      (by decide) (by decide) (by decide) (by decide) (by decide),
    by decide, by decide, by decide, by decide, by decide,
    handleSync_docSync_addressee bobFails sampleServer 11 _ ("alpha", sampleRoom) bob
      (by decide) (by decide) (by decide) (by decide) (by decide)⟩

/-- C7 at the sample server: the fresh name gamma and the existing name alpha. -/
theorem getOrCreateRoom_spec_witness :
    mapGet sampleServer.roomsMap "gamma" = none ∧
    mapGet sampleServer.roomsMap "alpha" = some sampleRoom ∧
    (∃ room s1, getOrCreateRoom sampleServer "gamma" "r-3" = (room, true, s1) ∧
        mapGet s1.roomsMap "gamma" = some room ∧
        (∀ other, other ≠ "gamma" →
          mapGet s1.roomsMap other = mapGet sampleServer.roomsMap other) ∧
        s1.roomsMap = sampleServer.roomsMap ++ [("gamma", room)] ∧
        s1.roomsMap.length = sampleServer.roomsMap.length + 1 ∧
        s1.siteID = sampleServer.siteID ∧
        getOrCreateRoom s1 "gamma" "r-4" = (room, false, s1)) ∧
    getOrCreateRoom sampleServer "alpha" "r-3" = (sampleRoom, false, sampleServer) :=
  ⟨by decide, by decide,
    (getOrCreateRoom_spec sampleServer "gamma" "r-3" "r-4").1 (by decide),
    (getOrCreateRoom_spec sampleServer "alpha" "r-3" "r-4").2 sampleRoom (by decide)⟩

/-- A users message built by `sendUsernames` is dropped by `handleSync`
whenever no client is registered under the zero id. -/
theorem handleSync_users_unaddressed (wire : client → Message → Bool) (s : Server)
    (c : Clients) (h : findRoom s.roomsMap uuidNil = none) :
    handleSync wire s c.usersMessage = some (Step.idle s) := by
  have h1 : ¬ (UsersMessage = DocSyncMessage) := by decide
  simp only [handleSync, Clients.usersMessage, h1, if_false, if_true]
  rw [h]

/-- C6: the message `sendUsernames` builds for the sample room (three members)
lists the three usernames but carries the zero `ID`; `getRoomByClientID` finds
no room for that id, so `handleSync` drops the message: whatever the
connections would do, nothing is written to any member. -/
theorem sendUsernames_message_dropped :
    sampleRoom.Clients.usersMessage =
      { Text := "ann,bob,cem,", MsgType := "users", ID := uuidNil } ∧
    getRoomByClientID sampleServer sampleRoom.Clients.usersMessage.ID = none ∧
    ∀ wire : client → Message → Bool,
      handleSync wire sampleServer sampleRoom.Clients.usersMessage
        = some { server := sampleServer, sends := [], syncChan := [], closed := [] } :=
  ⟨by decide, by decide,
    fun wire => handleSync_users_unaddressed wire sampleServer sampleRoom.Clients (by decide)⟩

theorem digitValue_digitChar (m : Nat) (h : m < 10) : digitValue (Nat.digitChar m) = m := by
  interval_cases m <;> decide

theorem foldl_toDigitsCore (fuel n : Nat) (ds : List Char) (h : n < fuel) :
    (Nat.toDigitsCore 10 fuel n ds).foldl (fun acc c => 10 * acc + digitValue c) 0 =
      ds.foldl (fun acc c => 10 * acc + digitValue c) n := by
  induction fuel generalizing n ds with
  | zero => omega
  | succ fuel ih =>
    unfold Nat.toDigitsCore
    simp only []
    have hd : digitValue (Nat.digitChar (n % 10)) = n % 10 :=
      digitValue_digitChar _ (Nat.mod_lt _ (by decide))
    by_cases h0 : n / 10 = 0
    · rw [if_pos h0]
      simp only [List.foldl_cons, hd]
      congr 1
      omega
    · rw [if_neg h0]
      rw [ih (n / 10) _ (by omega)]
      simp only [List.foldl_cons, hd]
      congr 1
      omega

theorem Atoi_toString (n : Nat) : Atoi (toString n) = n := by
  show Atoi (Nat.repr n) = n
  unfold Atoi Nat.repr Nat.toDigits
  simp only [List.asString]
  rw [foldl_toDigitsCore _ _ _ (Nat.lt_succ_self n)]
  rfl

theorem Itoa_small (n : Nat) (h : n < 2 ^ 63) : Itoa n = toString n := by
  unfold Itoa
  rw [if_pos h]

theorem Atoi_Itoa (n : Nat) (h : n < 2 ^ 63) : Atoi (Itoa n) = n := by
  rw [Itoa_small n h, Atoi_toString]

theorem getOrCreateRoom_siteID (s : Server) (roomID fresh : String) :
    (getOrCreateRoom s roomID fresh).2.2.siteID = s.siteID := by
  unfold getOrCreateRoom
  cases mapGet s.roomsMap roomID <;> rfl

theorem handleConn_accepted (wire : client → Message → Bool) (s : Server) (q : Dial)
    (h : q.roomID ≠ "") :
    ∃ cl, (handleConn wire s q).1 = some cl ∧ cl.SiteID = Itoa (nextSiteID s.siteID) ∧
      cl.id = q.clientID ∧ cl.Conn = q.Conn ∧ cl.Username = "" ∧
      (handleConn wire s q).2.server.siteID = nextSiteID s.siteID := by
  unfold handleConn
  rw [if_neg h]
  have hs := getOrCreateRoom_siteID s q.roomID q.fresh
  rcases hg : getOrCreateRoom s q.roomID q.fresh with ⟨room, createdNow, s1⟩
  rw [hg] at hs
  simp only at hs
  refine ⟨client.mk q.Conn (Itoa (nextSiteID s1.siteID)) q.clientID "", rfl, ?_, rfl, rfl,
    rfl, ?_⟩
  · simp only [hs]
  · simp only [Step.ofRun, hs]

theorem handleConn_rejected (wire : client → Message → Bool) (s : Server) (q : Dial)
    (h : q.roomID = "") :
    handleConn wire s q = (none, { Step.idle s with closed := [q.Conn] }) := by
  unfold handleConn
  rw [if_pos h]

theorem nextSiteID_small (n : Nat) (h : n + 1 < 2 ^ 63) : nextSiteID n = n + 1 := by
  unfold nextSiteID
  apply Nat.mod_eq_of_lt
  omega

theorem serve_siteIDs (wire : client → Message → Bool) (s : Server) (qs : List Dial)
    (hbound : s.siteID + qs.length < 2 ^ 63) :
    (serve wire s qs).2.map (fun cl => cl.SiteID) =
      (List.range' (s.siteID + 1) (qs.filter (fun q => q.roomID != "")).length).map toString ∧
    (serve wire s qs).1.siteID = s.siteID + (qs.filter (fun q => q.roomID != "")).length := by
  induction qs generalizing s with
  | nil => simp [serve]
  | cons q qs ih =>
    simp only [List.length_cons] at hbound
    by_cases h : q.roomID = ""
    · have hr := handleConn_rejected wire s q h
      unfold serve
      rw [hr]
      simp only [List.filter_cons, h, bne_self_eq_false, Bool.false_eq_true, if_false]
      exact ih s (by omega)
    · obtain ⟨cl, h1, h2, _, _, _, h3⟩ := handleConn_accepted wire s q h
      have hn : nextSiteID s.siteID = s.siteID + 1 := nextSiteID_small _ (by omega)
      rw [hn] at h2 h3
      have hq : (q.roomID != "") = true := by simpa using h
      rcases hc : handleConn wire s q with ⟨ocl, st⟩
      rw [hc] at h1 h3
      simp only at h1 h3
      subst h1
      unfold serve
      rw [hc]
      simp only [List.filter_cons, hq, if_true, List.length_cons, List.map_cons]
      obtain ⟨i1, i2⟩ := ih st.server (by rw [h3]; omega)
      rw [i1, i2, h3, h2, Itoa_small _ (by omega)]
      refine ⟨?_, by omega⟩
      rw [List.range'_succ, List.map_cons]

theorem relay_siteID (wire : client → Message → Bool) (s : Server) (m : Message)
    (st : Step) (h : relay wire s m = some st) : st.server.siteID = s.siteID := by
  unfold relay at h
  cases hf : findRoom s.roomsMap m.ID with
  | none => rw [hf] at h; cases h
  | some e =>
    obtain ⟨key, room⟩ := e
    rw [hf] at h
    simp only [Option.some.injEq] at h
    rw [← h]
    rfl

theorem handleMsg_siteID (wire : client → Message → Bool) (s : Server) (m : Message)
    (st : Step) (h : handleMsg wire s m = some st) : st.server.siteID = s.siteID := by
  unfold handleMsg at h
  by_cases hj : m.MsgType = JoinMessage
  · rw [if_pos hj] at h
    cases hf : findRoom s.roomsMap m.ID with
    | none => rw [hf] at h; cases h
    | some e =>
      obtain ⟨key, room⟩ := e
      rw [hf] at h
      simp only [] at h
      cases hu : room.Clients.updateName m.ID m.Username with
      | none => rw [hu] at h; cases h
      | some named =>
        rw [hu] at h
        simp only [] at h
        cases hr : relay wire
            { s with roomsMap := mapSet s.roomsMap key { room with Clients := named } } m with
        | none => rw [hr] at h; cases h
        | some st1 =>
          rw [hr] at h
          simp only [Option.some.injEq] at h
          rw [← h]
          exact relay_siteID wire
            { s with roomsMap := mapSet s.roomsMap key { room with Clients := named } } m st1 hr
  · rw [if_neg hj] at h
    by_cases ho : m.MsgType = "operation"
    · rw [if_pos ho] at h
      exact relay_siteID wire s m st h
    · rw [if_neg ho] at h
      cases hf : findRoom s.roomsMap m.ID with
      | none => rw [hf] at h; cases h
      | some e =>
        obtain ⟨key, room⟩ := e
        rw [hf] at h
        simp only [Option.some.injEq] at h
        rw [← h]
        rfl

theorem handleSync_siteID (wire : client → Message → Bool) (s : Server) (m : Message)
    (st : Step) (h : handleSync wire s m = some st) : st.server.siteID = s.siteID := by
  unfold handleSync at h
  by_cases hd : m.MsgType = DocSyncMessage
  · rw [if_pos hd] at h
    cases hf : findRoom s.roomsMap m.ID with
    | none => rw [hf] at h; cases h
    | some e =>
      obtain ⟨key, room⟩ := e
      rw [hf] at h
      simp only [Option.some.injEq] at h
      rw [← h]
      rfl
  · rw [if_neg hd] at h
    by_cases hu : m.MsgType = UsersMessage
    · rw [if_pos hu] at h
      cases hf : findRoom s.roomsMap m.ID with
      | none =>
        rw [hf] at h
        simp only [Option.some.injEq] at h
        rw [← h]
        rfl
      | some e =>
        obtain ⟨key, room⟩ := e
        rw [hf] at h
        simp only [Option.some.injEq] at h
        rw [← h]
        rfl
    · rw [if_neg hu] at h
      simp only [Option.some.injEq] at h
      rw [← h]
      rfl

/-- C12: as long as the counter stays below `2 ^ 63`, the connection accepted
while the counter holds `n` gets the `SiteID` that is the decimal rendering of
`n + 1` and leaves the counter at `n + 1`; for a sequence of connections,
whatever rooms they name, the site ids handed out are the renderings of
`n + 1, n + 2, ...` in the order of acceptance (a connection without a room
name is refused and uses up no id), so they are strictly increasing as numbers
and pairwise distinct as strings; the first id of a fresh server is `1`; and
no round of `handleMsg` or `handleSync` touches the counter. -/
theorem siteID_assignment (wire : client → Message → Bool) (s : Server) (qs : List Dial)
    (hbound : s.siteID + qs.length < 2 ^ 63) :
    (∀ q : Dial, q.roomID ≠ "" → s.siteID + 1 < 2 ^ 63 →
      ∃ cl, (handleConn wire s q).1 = some cl ∧ cl.SiteID = toString (s.siteID + 1) ∧
        (handleConn wire s q).2.server.siteID = s.siteID + 1) ∧
    (serve wire s qs).2.map (fun cl => cl.SiteID) =
      (List.range' (s.siteID + 1) (qs.filter (fun q => q.roomID != "")).length).map toString ∧
    (serve wire s qs).1.siteID = s.siteID + (qs.filter (fun q => q.roomID != "")).length ∧
    ((serve wire s qs).2.map (fun cl => Atoi cl.SiteID)).Pairwise (fun a b => a < b) ∧
    ((serve wire s qs).2.map (fun cl => cl.SiteID)).Nodup ∧
    (∀ q : Dial, q.roomID ≠ "" →
      (handleConn wire freshServer q).1.map (fun cl => cl.SiteID) = some "1") ∧
    (∀ m st, handleMsg wire s m = some st → st.server.siteID = s.siteID) ∧
    (∀ m st, handleSync wire s m = some st → st.server.siteID = s.siteID) := by
  obtain ⟨h1, h2⟩ := serve_siteIDs wire s qs hbound
  have hnum : (serve wire s qs).2.map (fun cl => Atoi cl.SiteID) =
      List.range' (s.siteID + 1) (qs.filter (fun q => q.roomID != "")).length := by
    have : (serve wire s qs).2.map (fun cl => Atoi cl.SiteID)
        = ((serve wire s qs).2.map (fun cl => cl.SiteID)).map Atoi := by
      rw [List.map_map]; rfl
    rw [this, h1, List.map_map]
    have hid : (Atoi ∘ fun n : Nat => toString n) = id := by
      funext n
      exact Atoi_toString n
    rw [hid, List.map_id]
  have hpair : ((serve wire s qs).2.map (fun cl => Atoi cl.SiteID)).Pairwise
      (fun a b => a < b) := by
    rw [hnum]
    exact List.pairwise_lt_range' _ _
  refine ⟨?_, h1, h2, hpair, ?_, ?_, handleMsg_siteID wire s, handleSync_siteID wire s⟩
  · intro q hq hb
    obtain ⟨cl, g1, g2, _, _, _, g3⟩ := handleConn_accepted wire s q hq
    have hn : nextSiteID s.siteID = s.siteID + 1 := nextSiteID_small _ hb
    rw [hn] at g2 g3
    exact ⟨cl, g1, by rw [g2, Itoa_small _ (by omega)], g3⟩
  · have hnd : ((serve wire s qs).2.map (fun cl => Atoi cl.SiteID)).Nodup :=
      hpair.imp (fun h => Nat.ne_of_lt h)
    have : (serve wire s qs).2.map (fun cl => Atoi cl.SiteID)
        = ((serve wire s qs).2.map (fun cl => cl.SiteID)).map Atoi := by
      rw [List.map_map]; rfl
    rw [this] at hnd
    exact List.Nodup.of_map _ hnd
  · intro q hq
    obtain ⟨cl, g1, g2, _⟩ := handleConn_accepted wire freshServer q hq
    rw [g1]
    simp only [Option.map_some']
    rw [g2]
    rfl

/-- C12 on a fresh server: three accepted connections and one without a room
name get the site ids 1, 2 and 3. -/
theorem siteID_assignment_witness :
    freshServer.siteID + [dialAnn, dialNobody, dialBob, dialDora].length < 2 ^ 63 ∧
    (serve bobFails freshServer [dialAnn, dialNobody, dialBob, dialDora]).2.map
      (fun cl => cl.SiteID) = ["1", "2", "3"] ∧
    (serve bobFails freshServer [dialAnn, dialNobody, dialBob, dialDora]).1.siteID = 3 ∧
    ((serve bobFails freshServer [dialAnn, dialNobody, dialBob, dialDora]).2.map
      (fun cl => cl.SiteID)).Nodup :=
  ⟨by decide,
    (siteID_assignment bobFails freshServer [dialAnn, dialNobody, dialBob, dialDora]
      (by decide)).2.1.trans (by decide),
    (siteID_assignment bobFails freshServer [dialAnn, dialNobody, dialBob, dialDora]
      (by decide)).2.2.1.trans (by decide),
    (siteID_assignment bobFails freshServer [dialAnn, dialNobody, dialBob, dialDora]
      (by decide)).2.2.2.2.1⟩

theorem add_monitors (c : Clients) (cl : client) : (c.add cl).monitors = c.monitors := by
  unfold Clients.add
  split <;> rfl

theorem close_monitors (r : Run) (id : UUID) :
    (r.close id).clients.monitors = r.clients.monitors := by
  unfold Run.close
  cases r.clients.lookup id <;> rfl

theorem sendTo_monitors (who : Goroutine) (wire : client → Message → Bool) (r : Run)
    (cl : client) (msg : Message) :
    (r.sendTo who wire cl msg).clients.monitors = r.clients.monitors := by
  unfold Run.sendTo
  cases wire cl msg with
  | true => rfl
  | false =>
    simp only [Bool.false_eq_true, if_false, Run.delete, sendUsernames_clients]
    rw [close_monitors]

theorem broadcastOne_monitors (who : Goroutine) (wire : client → Message → Bool) (c : Clients)
    (msg : Message) (dst : UUID) :
    (c.broadcastOne who wire msg dst).clients.monitors = c.monitors := by
  unfold Clients.broadcastOne
  split
  · rw [sendTo_monitors]; rfl
  · rfl

theorem broadcastOneExceptLoop_monitors (wire : client → Message → Bool) (msg : Message)
    (except : UUID) (l : List client) (r : Run) :
    (broadcastOneExceptLoop wire msg except l r).clients.monitors = r.clients.monitors := by
  induction l generalizing r with
  | nil => rfl
  | cons cl rest ih =>
    unfold broadcastOneExceptLoop
    split
    · exact ih r
    · split
      · exact sendTo_monitors _ wire r cl msg
      · rw [ih, sendTo_monitors]

/-- A connection to a room that exists already leaves the registry of that
room with one monitor more; a connection that creates the room leaves it with
one monitor. -/
theorem handleConn_monitors (wire : client → Message → Bool) (s : Server) (q : Dial)
    (h : q.roomID ≠ "") :
    monitorsOf (handleConn wire s q).2.server q.roomID =
      match mapGet s.roomsMap q.roomID with
      | some room => room.Clients.monitors + 1
      | none => 1 := by
  unfold handleConn
  rw [if_neg h]
  unfold getOrCreateRoom
  cases hm : mapGet s.roomsMap q.roomID with
  | some room =>
    simp only [Step.ofRun, monitorsOf, mapGet_mapSet_same, sendUsernames_clients,
      broadcastOneExceptLoop_monitors, broadcastOne_monitors, add_monitors]
    rfl
  | none =>
    simp only [Step.ofRun, monitorsOf, mapGet_mapSet_same, sendUsernames_clients,
      broadcastOneExceptLoop_monitors, broadcastOne_monitors, add_monitors]
    rfl

/-- C14: on a fresh server the first connection to the room alpha leaves one
monitor started for its registry, and the second connection to the same room
leaves two: `handleConn` starts a monitor exactly when `getOrCreateRoom`
reports that it did not create the room. This holds whatever the writes do. -/
theorem second_connection_starts_monitor (wire : client → Message → Bool) :
    monitorsOf (serve wire freshServer [dialAnn]).1 "alpha" = 1 ∧
    monitorsOf (serve wire freshServer [dialAnn, dialBob]).1 "alpha" = 2 := by
  have h1 : monitorsOf (handleConn wire freshServer dialAnn).2.server "alpha" = 1 :=
    handleConn_monitors wire freshServer dialAnn (by decide)
  have h2 := handleConn_monitors wire (handleConn wire freshServer dialAnn).2.server dialBob
    (by decide)
  have hq : dialBob.roomID = "alpha" := rfl
  rw [hq] at h2
  unfold monitorsOf at h1
  cases hm : mapGet (handleConn wire freshServer dialAnn).2.server.roomsMap "alpha" with
  | none => rw [hm] at h1; cases h1
  | some room =>
    rw [hm] at h1 h2
    simp only at h1 h2
    obtain ⟨c1, g1, _⟩ := handleConn_accepted wire freshServer dialAnn (by decide)
    obtain ⟨c2, g2, _⟩ := handleConn_accepted wire (handleConn wire freshServer dialAnn).2.server
      dialBob (by decide)
    constructor
    · unfold serve
      rcases hc : handleConn wire freshServer dialAnn with ⟨ocl, st⟩
      rw [hc] at g1 hm
      simp only at g1 hm
      subst g1
      simp only [serve, monitorsOf, hm, h1]
    · unfold serve
      rcases hc : handleConn wire freshServer dialAnn with ⟨ocl, st⟩
      rw [hc] at g1 g2 h2
      simp only at g1 g2 h2
      subst g1
      simp only []
      unfold serve
      rcases hc2 : handleConn wire st.server dialBob with ⟨ocl2, st2⟩
      rw [hc2] at g2 h2
      simp only at g2 h2
      subst g2
      simp only [serve]
      rw [h2, h1]

/-- A message whose id is registered in no room makes every branch of
`handleMsg` and the `docSync` branch of `handleSync` dereference the nil room;
only the `users` branch of `handleSync` drops it. -/
theorem unknown_id_rounds (wire : client → Message → Bool) (s : Server) (msg : Message)
    (h : getRoomByClientID s msg.ID = none) :
    handleMsg wire s msg = none ∧
    (msg.MsgType = DocSyncMessage → handleSync wire s msg = none) ∧
    (msg.MsgType = UsersMessage → handleSync wire s msg = some (Step.idle s)) := by
  have hf : findRoom s.roomsMap msg.ID = none := by
    unfold getRoomByClientID at h
    cases hfr : findRoom s.roomsMap msg.ID with
    | none => rfl
    | some e => rw [hfr] at h; cases h
  refine ⟨?_, ?_, ?_⟩
  · unfold handleMsg relay
    split
    · rw [hf]
    · split
      · rw [hf]
      · rw [hf]
  · intro hd
    unfold handleSync
    rw [if_pos hd, hf]
  · intro hu
    unfold handleSync
    have hne : ¬ msg.MsgType = DocSyncMessage := by
      rw [hu]
      decide
    rw [if_neg hne, if_pos hu, hf]

/-- C13: on the sample server no client has the id 99. A message with that id
makes `handleMsg` fail on the nil room for the types `operation` and `join`
and for an unknown type, and makes `handleSync` fail for the type `docSync`;
only a `users` message is dropped, leaving the state as it was with nothing
written. -/
theorem unknown_id_not_dropped (wire : client → Message → Bool) :
    getRoomByClientID sampleServer 99 = none ∧
    handleMsg wire sampleServer { MsgType := "operation", ID := 99 } = none ∧
    handleMsg wire sampleServer { MsgType := JoinMessage, ID := 99, Username := "eve" } = none ∧
    handleMsg wire sampleServer { MsgType := "ping", ID := 99 } = none ∧
    handleSync wire sampleServer { MsgType := DocSyncMessage, ID := 99 } = none ∧
    handleSync wire sampleServer { MsgType := UsersMessage, ID := 99 } =
      some (Step.idle sampleServer) :=
  ⟨by decide,
    (unknown_id_rounds wire sampleServer { MsgType := "operation", ID := 99 } (by decide)).1,
    (unknown_id_rounds wire sampleServer
      { MsgType := JoinMessage, ID := 99, Username := "eve" } (by decide)).1,
    (unknown_id_rounds wire sampleServer { MsgType := "ping", ID := 99 } (by decide)).1,
    (unknown_id_rounds wire sampleServer { MsgType := DocSyncMessage, ID := 99 }
      (by decide)).2.1 rfl,
    (unknown_id_rounds wire sampleServer { MsgType := UsersMessage, ID := 99 }
      (by decide)).2.2 rfl⟩

/-- What the channel of `get` yields: the registered client for a registered
id, and the nil pointer, not nothing, for an id that is not registered. -/
theorem get_yields (c : Clients) (id : UUID) :
    (∀ cl, c.lookup id = some cl → c.get id = [some cl] ∧ cl ∈ c.list ∧ cl.id = id) ∧
    (c.lookup id = none → c.get id = [none] ∧ (c.get id).length = 1) := by
  constructor
  · intro cl h
    obtain ⟨h1, h2⟩ := lookup_some c id cl h
    exact ⟨by simp [Clients.get, h], h1, h2⟩
  · intro h
    simp [Clients.get, h]

/-- C15: in the sample registry no client has the id 99, and the channel of
`get(99)` yields one value, the nil pointer, so it is not empty; for the
registered id 12 it yields the client bob. -/
theorem get_missing_yields_nil :
    sampleRoom.Clients.lookup 99 = none ∧
    sampleRoom.Clients.get 99 = [none] ∧
    sampleRoom.Clients.get 99 ≠ [] ∧
    sampleRoom.Clients.get 12 = [some bob] :=
  ⟨by decide, ((get_yields sampleRoom.Clients 99).2 (by decide)).1, by decide,
    ((get_yields sampleRoom.Clients 12).1 bob (by decide)).1⟩

/-- The list `close` leaves is the same with and without the lock
operations, whenever the method returns. -/
theorem guarded_close_list (g g1 : Guarded) (id : UUID) (h : g.close id = some g1) :
    g1.clients.list = ((Run.start g.clients).close id).clients.list := by
  rw [close_list]
  unfold Guarded.close at h
  cases hr : g.mu.RLock with
  | none => rw [hr] at h; cases h
  | some m1 =>
    rw [hr] at h
    simp only [] at h
    cases hl : g.clients.lookup id with
    | none =>
      rw [hl] at h
      simp only [Option.some.injEq] at h
      rw [← h]
      simp only [Run.start]
      symm
      rw [List.filter_eq_self]
      intro a ha
      unfold Clients.lookup at hl
      rw [List.find?_eq_none] at hl
      have := hl a ha
      simpa using this
    | some cl =>
      rw [hl] at h
      simp only [] at h
      cases h2 : m1.RUnlock with
      | none => rw [h2] at h; cases h
      | some m2 =>
        rw [h2] at h
        simp only [] at h
        cases h3 : m2.Lock with
        | none => rw [h3] at h; cases h
        | some m3 =>
          rw [h3] at h
          simp only [] at h
          cases h4 : m3.Unlock with
          | none => rw [h4] at h; cases h
          | some m4 =>
            rw [h4] at h
            simp only [Option.some.injEq] at h
            rw [← h]
            rfl

/-- On a registry whose lock is free: `close` of a registered id returns with
the lock free again; `close` of an id that is not registered returns with one
read lock still held and the list unchanged, and after that neither `add` nor
the `close` of a registered id gets the write lock. -/
theorem guarded_close_lock (c : Clients) (id : UUID) :
    (∀ cl, c.lookup id = some cl →
      Guarded.close { mu := RWMutex.free, clients := c } id =
        some { mu := RWMutex.free,
               clients := { c with list := c.list.filter (fun x => x.id != id) } }) ∧
    (c.lookup id = none →
      Guarded.close { mu := RWMutex.free, clients := c } id =
        some { mu := { readers := 1, writer := false }, clients := c } ∧
      (∀ cl, Guarded.add { mu := { readers := 1, writer := false }, clients := c } cl = none) ∧
      (∀ other cl, c.lookup other = some cl →
        Guarded.close { mu := { readers := 1, writer := false }, clients := c } other = none)) := by
  constructor
  · intro cl h
    simp [Guarded.close, RWMutex.free, RWMutex.RLock, RWMutex.RUnlock, RWMutex.Lock,
      RWMutex.Unlock, h]
  · intro h
    refine ⟨?_, ?_, ?_⟩
    · simp [Guarded.close, RWMutex.free, RWMutex.RLock, h]
    · intro cl
      simp [Guarded.add, RWMutex.Lock]
    · intro other cl ho
      simp [Guarded.close, RWMutex.RLock, RWMutex.RUnlock, RWMutex.Lock, ho]

/-- C16: on the sample registry with a free lock, `close(99)` for the id 99
that is not registered returns with the client list unchanged but with one
read lock still held; after that an `add` and the `close` of the registered
id 12 wait for the write lock for ever. The `close` of the registered id 12
on a free lock returns with the lock free again. -/
theorem close_leaks_read_lock :
    sampleRoom.Clients.lookup 99 = none ∧
    Guarded.close { mu := RWMutex.free, clients := sampleRoom.Clients } 99 =
      some { mu := { readers := 1, writer := false }, clients := sampleRoom.Clients } ∧
    Guarded.add { mu := { readers := 1, writer := false }, clients := sampleRoom.Clients }
      dora = none ∧
    Guarded.close { mu := { readers := 1, writer := false }, clients := sampleRoom.Clients }
      12 = none ∧
    Guarded.close { mu := RWMutex.free, clients := sampleRoom.Clients } 12 =
      some { mu := RWMutex.free, clients := { list := [ann, cem], monitors := 1 } } :=
  ⟨by decide, ((guarded_close_lock sampleRoom.Clients 99).2 (by decide)).1,
    ((guarded_close_lock sampleRoom.Clients 99).2 (by decide)).2.1 dora,
    ((guarded_close_lock sampleRoom.Clients 99).2 (by decide)).2.2 12 bob (by decide),
    by decide⟩

theorem updateName_some (c : Clients) (sid : UUID) (u : String)
    (h : (c.lookup sid).isSome) :
    c.updateName sid u = some (Clients.mk
      (c.list.map (fun x => if x.id = sid then { x with Username := u } else x))
      c.monitors) := by
  unfold Clients.updateName
  obtain ⟨cl, hcl⟩ := Option.isSome_iff_exists.mp h
  rw [hcl]
  simp only [beq_iff_eq]

theorem broadcastAllExceptLoop_quiet (wire : client → Message → Bool) (msg : Message)
    (except : UUID) (l : List client) (r : Run)
    (h : ∀ cl ∈ l, cl.id ≠ except → wire cl msg = true) :
    (broadcastAllExceptLoop wire msg except l r).clients = r.clients ∧
    (broadcastAllExceptLoop wire msg except l r).syncChan = r.syncChan ∧
    (broadcastAllExceptLoop wire msg except l r).closed = r.closed := by
  induction l generalizing r with
  | nil => exact ⟨rfl, rfl, rfl⟩
  | cons cl rest ih =>
    unfold broadcastAllExceptLoop
    have hrest : ∀ x ∈ rest, x.id ≠ except → wire x msg = true :=
      fun x hx => h x (List.mem_cons_of_mem _ hx)
    by_cases he : cl.id = except
    · rw [if_pos he]
      exact ih r hrest
    · rw [if_neg he]
      have hw := h cl (List.mem_cons_self _ _) he
      obtain ⟨a, b, c⟩ := ih (r.sendTo Goroutine.handleMsg wire cl msg) hrest
      rw [a, b, c]
      unfold Run.sendTo
      rw [if_pos hw]
      exact ⟨rfl, rfl, rfl⟩

theorem findRoom_mapSet (m : List (String × Room)) (id : UUID) (key : String)
    (room room1 : Room) (hk : (m.map (fun e => e.1)).Nodup)
    (h : findRoom m id = some (key, room)) (h1 : (room1.Clients.lookup id).isSome) :
    findRoom (mapSet m key room1) id = some (key, room1) := by
  induction m with
  | nil => simp [findRoom] at h
  | cons e rest ih =>
    rw [List.map_cons, List.nodup_cons] at hk
    unfold findRoom at h
    by_cases he : (e.2.Clients.lookup id).isSome
    · rw [if_pos he] at h
      cases h
      simp only [mapSet, if_true, findRoom, h1]
    · rw [if_neg he] at h
      have hmem := (findRoom_mem rest id (key, room) h).1
      have hne : e.1 ≠ key := by
        intro hc
        apply hk.1
        rw [hc]
        exact List.mem_map_of_mem (fun e => e.1) hmem
      unfold mapSet
      rw [if_neg hne]
      unfold findRoom
      rw [if_neg he]
      exact ih hk.2 h

theorem broadcastAllExceptLoop_list (wire : client → Message → Bool) (msg : Message)
    (except : UUID) (l : List client) (r : Run) :
    (broadcastAllExceptLoop wire msg except l r).clients.list =
      r.clients.list.filter (fun x =>
        !(l.any (fun cl => cl.id != except && !wire cl msg && cl.id == x.id))) := by
  induction l generalizing r with
  | nil => simp [broadcastAllExceptLoop]
  | cons cl rest ih =>
    unfold broadcastAllExceptLoop
    by_cases he : cl.id = except
    · rw [if_pos he, ih]
      apply List.filter_congr
      intro x _
      simp [he]
    · rw [if_neg he, ih, sendTo_list, List.filter_filter]
      apply List.filter_congr
      intro x _
      have hne : (cl.id != except) = true := by simpa using he
      cases h1 : wire cl msg <;> cases h2 : (cl.id == x.id) <;>
        cases h3 : (x.id != cl.id) <;> simp_all

theorem broadcastAllExceptLoop_monitors (wire : client → Message → Bool) (msg : Message)
    (except : UUID) (l : List client) (r : Run) :
    (broadcastAllExceptLoop wire msg except l r).clients.monitors = r.clients.monitors := by
  induction l generalizing r with
  | nil => rfl
  | cons cl rest ih =>
    unfold broadcastAllExceptLoop
    split
    · exact ih r
    · rw [ih, sendTo_monitors]

theorem broadcastAllExceptLoop_hung (wire : client → Message → Bool) (msg : Message)
    (except : UUID) (l : List client) (r : Run) :
    (broadcastAllExceptLoop wire msg except l r).hung = r.hung := by
  induction l generalizing r with
  | nil => rfl
  | cons cl rest ih =>
    unfold broadcastAllExceptLoop
    split
    · exact ih r
    · rw [ih, sendTo_hung_elsewhere _ _ _ _ _ (by decide)]

/-- After `broadcastAllExcept` on a registry with pairwise distinct ids, the
registry holds the client with the id `except` and the clients whose write
succeeded, in their old order. -/
theorem broadcastAllExcept_list (wire : client → Message → Bool) (c : Clients) (msg : Message)
    (except : UUID) (hwf : c.WF) :
    (c.broadcastAllExcept wire msg except).clients =
      Clients.mk (c.list.filter (fun x => x.id == except || wire x msg)) c.monitors := by
  have hl : (c.broadcastAllExcept wire msg except).clients.list =
      c.list.filter (fun x => x.id == except || wire x msg) := by
    unfold Clients.broadcastAllExcept
    rw [broadcastAllExceptLoop_list]
    simp only [Run.start, Clients.getAll]
    apply List.filter_congr
    intro x hx
    by_cases hkeep : (x.id == except || wire x msg) = true
    · rw [hkeep]
      simp only [Bool.not_eq_true', List.any_eq_false, Bool.and_eq_true, beq_iff_eq,
        bne_iff_ne, ne_eq, Bool.not_eq_true', not_and]
      intro y hy hne hid
      have hyx : y = x := List.inj_on_of_nodup_map hwf hy hx hid
      subst hyx
      simp only [Bool.or_eq_true, beq_iff_eq] at hkeep
      rcases hkeep with hk | hk
      · exact hne.1 hk
      · rw [hk] at hne
        cases hne.2
    · have hkeep1 : (x.id == except || wire x msg) = false := by
        simpa using hkeep
      rw [hkeep1]
      simp only [Bool.or_eq_false_iff, beq_eq_false_iff_ne, ne_eq] at hkeep1
      simp only [Bool.not_eq_false', List.any_eq_true, Bool.and_eq_true, beq_iff_eq,
        bne_iff_ne, ne_eq, Bool.not_eq_true']
      exact ⟨x, hx, ⟨hkeep1.1, hkeep1.2⟩, rfl⟩
  have hm : (c.broadcastAllExcept wire msg except).clients.monitors = c.monitors := by
    unfold Clients.broadcastAllExcept
    rw [broadcastAllExceptLoop_monitors]
    rfl
  cases hc : (c.broadcastAllExcept wire msg except).clients with
  | mk l n =>
    rw [hc] at hl hm
    simp only at hl hm
    rw [hl, hm]

theorem updateName_WF (c named : Clients) (sid : UUID) (u : String)
    (h : c.updateName sid u = some named) (hwf : c.WF) : named.WF := by
  unfold Clients.updateName at h
  cases hl : c.lookup sid with
  | none => rw [hl] at h; cases h
  | some cl =>
    rw [hl] at h
    simp only [Option.some.injEq] at h
    rw [← h]
    unfold Clients.WF at hwf ⊢
    simp only [List.map_map]
    have hfun : ((fun cl : client => cl.id) ∘ fun x : client =>
        if (x.id == sid) = true then { x with Username := u } else x)
        = fun cl : client => cl.id := by
      funext x
      simp only [Function.comp]
      split <;> rfl
    rw [hfun]
    exact hwf

/-- C11, as amended: in a registry that contains a client with the id `sid`,
the name update of a join message with that id and the username `u`
succeeds; the registry it leaves has the same ids, site ids and connections
in the same places and the same monitors, every client with another id is
unchanged, and the client with the id `sid` differs from before in its
`Username` only, which is `u`. The round of `handleMsg` for such a message
ends; it puts the usernames of the renamed registry on `syncChan`, writes the
message to every client of the renamed registry with another id, and leaves
the room with the renamed registry without the clients, other than `sid`,
whose write failed: with exactly the renamed registry when every write
succeeds. -/
theorem join_updates_username (wire : client → Message → Bool) (c : Clients) (sid : UUID)
    (u : String) (cl : client) (hcl : cl ∈ c.list) (hid : cl.id = sid) :
    (∃ named, c.updateName sid u = some named ∧
      named.list = c.list.map (fun x => if x.id = sid then { x with Username := u } else x) ∧
      named.monitors = c.monitors ∧
      named.list.map (fun x => x.id) = c.list.map (fun x => x.id) ∧
      named.list.map (fun x => x.SiteID) = c.list.map (fun x => x.SiteID) ∧
      named.list.map (fun x => x.Conn) = c.list.map (fun x => x.Conn) ∧
      (∀ i x, c.list.get? i = some x → x.id ≠ sid → named.list.get? i = some x) ∧
      (∀ i x, c.list.get? i = some x → x.id = sid →
        named.list.get? i = some { x with Username := u })) ∧
    (∀ (s : Server) (key : String) (room : Room) (m : Message),
      m.MsgType = JoinMessage → m.ID = sid → m.Username = u → room.Clients = c →
      findRoom s.roomsMap sid = some (key, room) →
      (s.roomsMap.map (fun e => e.1)).Nodup →
      ∃ named st, c.updateName sid u = some named ∧ handleMsg wire s m = some st ∧
        st.hung = false ∧
        st.syncChan.head? = some named.usersMessage ∧
        st.sends = (named.list.filter (fun x => x.id != sid)).map
          (fun x => { dst := x, msg := m, ok := wire x m }) ∧
        (c.WF → mapGet st.server.roomsMap key = some (Room.mk room.ID
          (Clients.mk (named.list.filter (fun x => x.id == sid || wire x m))
            named.monitors))) ∧
        ((∀ x ∈ named.list, x.id ≠ sid → wire x m = true) →
          mapGet st.server.roomsMap key = some { room with Clients := named })) := by
  have hsome : (c.lookup sid).isSome := by
    rw [← hid]
    exact lookup_of_mem c cl hcl
  have hup := updateName_some c sid u hsome
  constructor
  · refine ⟨_, hup, rfl, rfl, ?_, ?_, ?_, ?_, ?_⟩
    · simp only [List.map_map]
      apply List.map_congr_left
      intro x _
      simp only [Function.comp]
      split <;> rfl
    · simp only [List.map_map]
      apply List.map_congr_left
      intro x _
      simp only [Function.comp]
      split <;> rfl
    · simp only [List.map_map]
      apply List.map_congr_left
      intro x _
      simp only [Function.comp]
      split <;> rfl
    · intro i x hx hne
      simp only [List.get?_eq_getElem?] at hx ⊢
      simp only [List.getElem?_map, hx, Option.map_some', if_neg hne]
    · intro i x hx he
      simp only [List.get?_eq_getElem?] at hx ⊢
      simp only [List.getElem?_map, hx, Option.map_some', if_pos he]
  · intro s key room m hty hmid hmu hrc hroom hkeys
    subst hrc
    subst hmid
    subst hmu
    clear hsome
    let named : Clients := Clients.mk
      (room.Clients.list.map
        (fun x => if x.id = m.ID then { x with Username := m.Username } else x))
      room.Clients.monitors
    have hnamed : (named.lookup m.ID).isSome := by
      have hmem : ({ cl with Username := m.Username } : client) ∈ named.list := by
        show _ ∈ room.Clients.list.map _
        rw [List.mem_map]
        exact ⟨cl, hcl, by rw [if_pos hid]⟩
      have := lookup_of_mem named _ hmem
      simpa [hid] using this
    have hfind := findRoom_mapSet s.roomsMap m.ID key room { room with Clients := named }
      hkeys hroom hnamed
    let s1 : Server := Server.mk (mapSet s.roomsMap key (Room.mk room.ID named)) s.siteID
    let st0 : Step := Step.ofRun s1 key (Room.mk room.ID named)
      (named.broadcastAllExcept wire m m.ID)
    refine ⟨named, Step.mk st0.server st0.sends (named.usersMessage :: st0.syncChan)
      st0.closed st0.hung, hup, ?_, ?_, ?_, ?_, ?_, ?_⟩
    · simp only [handleMsg, if_pos hty, hroom, hup, relay, hfind]
    · show (named.broadcastAllExcept wire m m.ID).hung = false
      unfold Clients.broadcastAllExcept
      rw [broadcastAllExceptLoop_hung]
      rfl
    · rfl
    · show (named.broadcastAllExcept wire m m.ID).sends = _
      unfold Clients.broadcastAllExcept
      rw [broadcastAllExceptLoop_sends]
      simp [Run.start, Clients.getAll]
    · intro hwf
      have hnwf : named.WF := updateName_WF room.Clients named m.ID m.Username hup hwf
      simp only [st0, s1, Step.ofRun, mapGet_mapSet_same]
      rw [broadcastAllExcept_list wire named m m.ID hnwf]
    · intro hall
      simp only [st0, s1, Step.ofRun, mapGet_mapSet_same]
      have hq := (broadcastAllExceptLoop_quiet wire m m.ID named.getAll (Run.start named)
        (fun x hx hne => hall x hx hne)).1
      unfold Clients.broadcastAllExcept
      rw [hq]
      rfl

/-- C11 at the sample server: bob joins under the name robert while the write
to cem fails. The name update touches the username of bob only; the round
leaves the room with ann and the renamed bob. -/
theorem join_updates_username_witness :
    let m : Message := { MsgType := JoinMessage, ID := 12, Username := "robert" }
    bob ∈ sampleRoom.Clients.list ∧ bob.id = 12 ∧
    sampleRoom.Clients.updateName 12 "robert" =
      some { list := [ann, { bob with Username := "robert" }, cem], monitors := 1 } ∧
    (∃ named, sampleRoom.Clients.updateName 12 "robert" = some named ∧
      named.list = sampleRoom.Clients.list.map
        (fun x => if x.id = 12 then { x with Username := "robert" } else x) ∧
      named.monitors = sampleRoom.Clients.monitors ∧
      named.list.map (fun x => x.id) = sampleRoom.Clients.list.map (fun x => x.id) ∧
      named.list.map (fun x => x.SiteID) = sampleRoom.Clients.list.map (fun x => x.SiteID) ∧
      named.list.map (fun x => x.Conn) = sampleRoom.Clients.list.map (fun x => x.Conn) ∧
      (∀ i x, sampleRoom.Clients.list.get? i = some x → x.id ≠ 12 →
        named.list.get? i = some x) ∧
      (∀ i x, sampleRoom.Clients.list.get? i = some x → x.id = 12 →
        named.list.get? i = some { x with Username := "robert" })) ∧
    m.MsgType = JoinMessage ∧
    findRoom sampleServer.roomsMap 12 = some ("alpha", sampleRoom) ∧
    (sampleServer.roomsMap.map (fun e => e.1)).Nodup ∧
    sampleRoom.Clients.WF ∧
    (∃ named st, sampleRoom.Clients.updateName 12 "robert" = some named ∧
      handleMsg cemFails sampleServer m = some st ∧
      st.hung = false ∧
      st.syncChan.head? = some named.usersMessage ∧
      st.sends = (named.list.filter (fun x => x.id != 12)).map
        (fun x => { dst := x, msg := m, ok := cemFails x m }) ∧
      (sampleRoom.Clients.WF → mapGet st.server.roomsMap "alpha" = some (Room.mk sampleRoom.ID
        (Clients.mk (named.list.filter (fun x => x.id == 12 || cemFails x m))
          named.monitors))) ∧
      ((∀ x ∈ named.list, x.id ≠ 12 → cemFails x m = true) →
        mapGet st.server.roomsMap "alpha" = some { sampleRoom with Clients := named })) :=
  ⟨by decide, rfl, by decide,
    (join_updates_username cemFails sampleRoom.Clients 12 "robert" bob (by decide) rfl).1,
    rfl, by decide, by decide, by decide,
    (join_updates_username cemFails sampleRoom.Clients 12 "robert" bob (by decide) rfl).2
      sampleServer "alpha" sampleRoom _ rfl rfl rfl rfl (by decide) (by decide)⟩

/-- C11, the claim as worded fails: bob (id 12) is registered in the sample
room with ann (11) and cem (13); his join message under the name robert is
processed while the write to cem fails. The round renames bob, and it also
closes the connection of cem and takes cem out of the registry: the set of
registered ids goes from 11, 12, 13 to 11, 12. -/
theorem join_round_removes_member :
    bob ∈ sampleRoom.Clients.list ∧
    forward 12 { MsgType := JoinMessage, Username := "robert" } =
      (Chan.messageChan, { MsgType := JoinMessage, Username := "robert", ID := 12 }) ∧
    mapGet sampleServer.roomsMap "alpha" = some sampleRoom ∧
    sampleRoom.Clients.list.map (fun x => x.id) = [11, 12, 13] ∧
    ∃ st room,
      handleMsg cemFails sampleServer
        (forward 12 { MsgType := JoinMessage, Username := "robert" }).2 = some st ∧
      st.hung = false ∧
      mapGet st.server.roomsMap "alpha" = some room ∧
      room.Clients.list = [ann, { bob with Username := "robert" }] ∧
      room.Clients.list.map (fun x => x.id) = [11, 12] ∧
      st.closed = [cem.Conn] :=
  ⟨by decide, by decide, by decide, by decide, _, _, rfl, rfl, rfl, rfl, rfl, rfl⟩

end server
